import Mathlib

/-!
Shallow embedding of the execution core of the luster Lua VM
(src/thread.rs) and its input preprocessor (src/io.rs).

Conventions used throughout:
* Rust `Vec` push/pop at the end is modelled by `List` cons at the head for
  the frame stack (so `frames.head?` is `frames.last()` of the source), and
  by plain front-indexed lists for the value stack (index `i` of the model
  is index `i` of the source).
* Rust panics (index out of bounds, `expect`, explicit `panic!`) are
  modelled by `Option.none` or by the `StepOut.crash` outcome.
* GC pointers (closures, callbacks, upvalue cells, threads) are modelled by
  natural-number identities into environment tables.
-/

namespace Luster

/-- Model of the VM value type. Scalars are structural; closures and
callbacks are identified by a heap id (pointer identity in the source). -/
inductive Value where
  | nil
  | boolean (b : Bool)
  | integer (i : Int)
  | closure (c : Nat)
  | callback (c : Nat)
  deriving DecidableEq, Repr

/-- Modelled from the spec: the `Value` arithmetic contract (`add` returns a
new Value or a failure indication). The kernels live in value.rs, outside
the sources at hand; integers are given their evident semantics and all
other operand shapes fail. -/
def Value.add : Value → Value → Option Value
  | .integer a, .integer b => some (.integer (a + b))
  | _, _ => none

/-- Modelled from the spec: `Value` subtraction, see `Value.add`. -/
def Value.subtract : Value → Value → Option Value
  | .integer a, .integer b => some (.integer (a - b))
  | _, _ => none

/-- Modelled from the spec: `Value` comparison, see `Value.add`. -/
def Value.less_than : Value → Value → Option Bool
  | .integer a, .integer b => some (decide (a < b))
  | _, _ => none

/-- Truthiness: false and nil are false; all other values are true. -/
def Value.to_bool : Value → Bool
  | .nil => false
  | .boolean b => b
  | _ => true

/-- VarCount: a fixed count or "variable" (all values up to the stack top).
`variadic` embeds `VarCount::variable()` (`variable` is reserved in Lean). -/
inductive VarCount where
  | constant (n : Nat)
  | variadic
  deriving DecidableEq, Repr

def VarCount.to_constant : VarCount → Option Nat
  | .constant n => some n
  | .variadic => none

def VarCount.is_variable : VarCount → Bool
  | .constant _ => false
  | .variadic => true

/-- Checked write of one stack slot; `none` models the Rust index panic. -/
def stack_set (st : List Value) (i : Nat) (v : Value) : Option (List Value) :=
  if i < st.length then some (st.set i v) else none

/-- Rust `Vec::resize(n, Value::Nil)`: truncate or pad with Nil. -/
def resize (st : List Value) (n : Nat) : List Value :=
  if n ≤ st.length then st.take n else st ++ List.replicate (n - st.length) Value.nil

/-- Rust `Vec::truncate(n)`: shrink to at most `n` elements. -/
def truncate (st : List Value) (n : Nat) : List Value := st.take n

/-- Embeds `add_offset` of thread.rs: signed pc adjustment; `none` models
the `checked_sub(..).unwrap()` panic on underflow. -/
def add_offset (pc : Nat) (offset : Int) : Option Nat :=
  if 0 < offset then some (pc + offset.toNat)
  else if offset < 0 then
    (if (-offset).toNat ≤ pc then some (pc - (-offset).toNat) else none)
  else some pc

/-! ## Input preprocessor (io.rs `skip_prefix`)

The `BufRead` is modelled as the list of not-yet-consumed bytes, with
`fill_buf` returning the whole remainder (the source requires the buffer to
hold at least three unread bytes; an in-memory buffered reader behaves this
way). -/

/-- Embeds the index scan inside the shebang loop of `skip_prefix`: the
first index holding a newline byte, or the buffer length. -/
def find_newline : List Nat → Nat
  | [] => 0
  | b :: rest => if b = 10 then 0 else find_newline rest + 1

/-- Embeds the `loop { .. consume(to_consume) .. }` of `skip_prefix`:
repeatedly consume up to the next newline until nothing is consumed. -/
def consume_shebang (buf : List Nat) : List Nat :=
  let to_consume := find_newline buf
  if h : to_consume = 0 then buf
  else
    have hlt : (buf.drop to_consume).length < buf.length := by
      cases buf with
      | nil => exact absurd rfl h
      | cons b rest =>
        simp only [List.length_drop, List.length_cons]
        omega
    consume_shebang (buf.drop to_consume)
termination_by buf.length

/-- Embeds the first `fill_buf`/`consume` block of io.rs `skip_prefix`:
consume a leading UTF-8 BOM when the buffer shows one. -/
def bom_skip (input : List Nat) : List Nat :=
  if 3 ≤ input.length ∧ input.get? 0 = some 0xef ∧ input.get? 1 = some 0xbb ∧
      input.get? 2 = some 0xbf
  then input.drop 3 else input

/-- Embeds io.rs `skip_prefix`: skip a leading UTF-8 BOM, then a unix
shebang (`#` up to, not including, the first newline). -/
def strip_prelude (input : List Nat) : List Nat :=
  if 1 ≤ (bom_skip input).length ∧ (bom_skip input).get? 0 = some 35
  then consume_shebang ((bom_skip input).drop 1)
  else bom_skip input

/-- Stated from the claim: when the next byte is `#`, consume it and every
following byte up to but not including the next newline (or through end of
stream); otherwise consume nothing. -/
def shebang_spec (l : List Nat) : List Nat :=
  match l with
  | [] => []
  | b :: t =>
    if b = 35 then t.dropWhile (fun c => decide (c ≠ 10))
    else b :: t

/-- Stated from the claim: consume a leading `EF BB BF` when present, then
apply the shebang rule; consume nothing else. -/
def strip_prelude_spec (input : List Nat) : List Nat :=
  shebang_spec (if input.take 3 = [0xef, 0xbb, 0xbf] then input.drop 3 else input)

/-! ## Upvalue cells across threads

Embeds the shared-upvalue protocol of thread.rs (`get_upvalue`, the
`SetUpValue` cell write, `close_upvalues`) over an explicit store. Threads
are identified by `Nat` (pointer identity of the `GcCell` in the source),
`stackOf t` is thread `t`'s operand stack, and upvalue cells are a heap
`Nat → UpValueState` (a `GcCell` pointer is always valid, so cell lookup is
total). The `upper_stack` slice of the source is a view of the running
thread's own stack; the model reads and writes `stackOf selfT` for the
`thread == self` branch. -/

namespace Cells

/-- UpValueState: `openUv thread ind` aliases `thread.stack[ind]`;
`closed v` owns its value (`open` is reserved in Lean). -/
inductive UpValueState where
  | openUv (thread : Nat) (ind : Nat)
  | closed (v : Value)
  deriving DecidableEq, Repr

/-- Embeds thread.rs `fn get_upvalue`: an open cell reads through the
owning thread's stack slot, a closed cell yields its inline value. -/
def get_upvalue (stackOf : Nat → List Value) (cells : Nat → UpValueState)
    (selfT : Nat) (cid : Nat) : Option Value :=
  match cells cid with
  | .openUv t i => if t = selfT then (stackOf selfT).get? i else (stackOf t).get? i
  | .closed v => some v

/-- Embeds the cell write performed by the `OpCode::SetUpValue` arm of
thread.rs: an open cell routes the write through whichever thread owns the
slot; a closed cell stores the value inline. -/
def set_upvalue (stackOf : Nat → List Value) (cells : Nat → UpValueState)
    (selfT : Nat) (cid : Nat) (val : Value) :
    Option ((Nat → List Value) × (Nat → UpValueState)) :=
  match cells cid with
  | .openUv t i =>
    if t = selfT then
      if i < (stackOf selfT).length then
        some (fun t2 => if t2 = selfT then (stackOf selfT).set i val else stackOf t2, cells)
      else none
    else
      if i < (stackOf t).length then
        some (fun t2 => if t2 = t then (stackOf t).set i val else stackOf t2, cells)
      else none
  | .closed _ =>
    some (stackOf, fun c => if c = cid then .closed val else cells c)

/-- Embeds the `for (_, upval) in open_upvalues.split_off(&bottom)` loop of
thread.rs `close_upvalues`, run by thread `selfT`: each removed cell that
is still open is overwritten with the value of its referent stack slot,
read through the owning thread. `none` models the slot-index panic. -/
def close_cells (stackOf : Nat → List Value) (selfT : Nat) :
    (Nat → UpValueState) → List (Nat × Nat) → Option (Nat → UpValueState)
  | cells, [] => some cells
  | cells, (_, cid) :: rest =>
    match cells cid with
    | .openUv t i =>
      match (if t = selfT then (stackOf selfT).get? i else (stackOf t).get? i) with
      | none => none
      | some v =>
        close_cells stackOf selfT (fun c => if c = cid then .closed v else cells c) rest
    | .closed _ => close_cells stackOf selfT cells rest

/-- Embeds thread.rs `close_upvalues`, with the `BTreeMap` of thread
`selfT` as an association list from stack index to cell id: `split_off`
removes the entries with key at least `bottom` and each removed cell is
closed with its slot's current value. -/
def close_upvalues (stackOf : Nat → List Value) (selfT : Nat)
    (openUps : List (Nat × Nat)) (cells : Nat → UpValueState) (bottom : Nat) :
    Option (List (Nat × Nat) × (Nat → UpValueState)) :=
  (close_cells stackOf selfT cells
      (openUps.filter (fun kv => decide (bottom ≤ kv.1)))).map
    (fun cs => (openUps.filter (fun kv => decide (kv.1 < bottom)), cs))

/-- Decidable per-entry precondition for a `close_upvalues` sweep: an open
cell's referent slot exists. -/
def entry_ok (stackOf : Nat → List Value) (cells : Nat → UpValueState)
    (kv : Nat × Nat) : Bool :=
  match cells kv.2 with
  | .openUv t i => decide (i < (stackOf t).length)
  | .closed _ => true

end Cells

/-! ## Thread state and dispatcher

Single-thread embedding of thread.rs: `ThreadState` mirrors the Rust
struct, with the open-upvalue `BTreeMap` as an association list from stack
index to cell id and the cells of this thread held in a side list (the
cross-thread cell protocol is verified in the `Cells` namespace above; the
dispatcher model runs one thread, so the `thread == self` branch of
upvalue closing always applies). -/

/-- Upvalue cell of the single-thread dispatcher model. -/
inductive CellState where
  | openCell (ind : Nat)
  | closed (v : Value)
  deriving DecidableEq, Repr

/-- FrameReturn: CallBoundary finishes the slice on return; Upper returns
the given number of results to the frame above. -/
inductive FrameReturn where
  | callBoundary
  | upper (returns : VarCount)
  deriving DecidableEq, Repr

/-- FrameType: a Lua bytecode frame, a native callback continuation
(identified by id), or a suspended Yield marker. -/
inductive FrameType where
  | lua (base : Nat) (pc : Nat)
  | callback (cb : Nat)
  | yield
  deriving DecidableEq, Repr

/-- One call frame, mirroring `struct Frame` of thread.rs. -/
structure Frame where
  bottom : Nat
  top : Nat
  frame_type : FrameType
  frame_return : FrameReturn
  deriving DecidableEq, Repr

/-- Mirrors `struct ThreadState`. `frames` holds the most recent frame at
the head (Rust pushes and pops at the end of its `Vec`). -/
structure ThreadState where
  stack : List Value
  frames : List Frame
  open_upvalues : List (Nat × Nat)
  cells : List CellState
  deriving DecidableEq, Repr

/-- The embedded subset of `OpCode` (the arms the verified claims
exercise); `ret` embeds `OpCode::Return` (`return` is reserved in Lean). -/
inductive OpCode where
  | move (dest : Nat) (source : Nat)
  | loadConstant (dest : Nat) (constant : Nat)
  | loadBool (dest : Nat) (value : Bool) (skip_next : Bool)
  | loadNil (dest : Nat) (count : Nat)
  | jump (offset : Int) (close_upvalues : Option Nat)
  | test (value : Nat) (is_true : Bool)
  | call (func : Nat) (args : VarCount) (returns : VarCount)
  | tailCall (func : Nat) (args : VarCount)
  | ret (start : Nat) (count : VarCount)
  | numericForPrep (base : Nat) (jump : Int)
  | numericForLoop (base : Nat) (jump : Int)
  | addRR (dest : Nat) (left : Nat) (right : Nat)
  | eqRR (skip_if : Bool) (left : Nat) (right : Nat)
  deriving DecidableEq, Repr

/-- Mirrors `FunctionProto`: immutable compiled function consumed
read-only (nested prototypes are ids, unused by the embedded opcodes). -/
structure FunctionProto where
  opcodes : List OpCode
  constants : List Value
  prototypes : List Nat
  fixed_params : Nat
  stack_size : Nat
  deriving DecidableEq, Repr

/-- Result of one callback invocation or continuation step: the
`CallbackResult` variants plus the `Err` of the surrounding `Result`.
A `Continue` carries the id of the new continuation. -/
inductive CallbackAction where
  | ret (vals : List Value)
  | yieldA (vals : List Value)
  | continueA (k : Nat)
  | errA (e : Nat)
  deriving DecidableEq, Repr

/-- The immutable environment: the prototype table (closure ids index it;
the embedded closures carry no upvalues, which no embedded opcode reads),
the behaviour of `Callback::call`, and the behaviour of one `step` of a
stored continuation (`none` models a step that is not yet done). -/
structure Env where
  protos : List FunctionProto
  callbackCall : Nat → List Value → CallbackAction
  contStep : Nat → Option CallbackAction

/-- Observable outcome of one slice: `notDone` is the dispatcher's `None`,
`finish`/`continueThread`/`errorRes` are `Some(Ok(Finish ..))`,
`Some(Ok(Continue ..))` and `Some(Err ..)`, and `crash` models a panic. -/
inductive StepOut where
  | notDone
  | finish (vals : List Value)
  | continueThread (k : Nat)
  | errorRes (e : Nat)
  | crash
  deriving DecidableEq, Repr

/-- Result of executing one opcode: fall through to the budget check,
`continue 'start` (no budget check), or return from the slice. -/
inductive Exec1Res where
  | fellThrough (s : ThreadState)
  | restarted (s : ThreadState)
  | returned (s : ThreadState) (r : StepOut)
  deriving DecidableEq, Repr

/-- Store a new pc (and base) into the top frame, which the caller knows
to be a Lua frame (the source mutates `*pc` in place). -/
def set_pc (s : ThreadState) (base : Nat) (pc : Nat) : ThreadState :=
  { s with frames := match s.frames with
      | f :: rest => { f with frame_type := .lua base pc } :: rest
      | [] => [] }

/-- Sequential ascending copy `stack[dst+i] = stack[src+i]` for `i < n`,
mirroring the element loops of the `Return` and `TailCall` arms. -/
def copy_slots : Nat → List Value → Nat → Nat → Option (List Value)
  | 0, st, _, _ => some st
  | n + 1, st, dst, src =>
    match st.get? src with
    | none => none
    | some v =>
      match stack_set st dst v with
      | none => none
      | some st1 => copy_slots n st1 (dst + 1) (src + 1)

/-- Sequential fill `stack[dst+i] = Nil` for `i < n` (the padding loops). -/
def fill_nil : Nat → List Value → Nat → Option (List Value)
  | 0, st, _ => some st
  | n + 1, st, dst =>
    match stack_set st dst .nil with
    | none => none
    | some st1 => fill_nil n st1 (dst + 1)

/-- Sequential writes of a list of values starting at `dst` (the result
copy loops of callback returns). -/
def write_list : List Value → List Value → Nat → Option (List Value)
  | st, [], _ => some st
  | st, v :: vs, dst =>
    match stack_set st dst v with
    | none => none
    | some st1 => write_list st1 vs (dst + 1)

/-- Embeds the single-thread instance of the `close_upvalues` sweep over
this thread's cell list (compare `Cells.close_cells`). -/
def close_cells (stack : List Value) :
    List CellState → List (Nat × Nat) → Option (List CellState)
  | cs, [] => some cs
  | cs, (_, cid) :: rest =>
    match cs.get? cid with
    | some (.openCell ind) =>
      match stack.get? ind with
      | none => none
      | some v => close_cells stack (cs.set cid (.closed v)) rest
    | some (.closed _) => close_cells stack cs rest
    | none => none

/-- Embeds thread.rs `close_upvalues` for the dispatcher model: remove
every open-upvalue entry with stack index at least `bottom` and close its
cell with the slot's current value. -/
def close_upvalues (s : ThreadState) (bottom : Nat) : Option ThreadState :=
  (close_cells s.stack s.cells
      (s.open_upvalues.filter (fun kv => decide (bottom ≤ kv.1)))).map
    (fun cs =>
      { s with
        open_upvalues := s.open_upvalues.filter (fun kv => decide (kv.1 < bottom)),
        cells := cs })

/-- Decidable per-entry precondition of a close sweep in the dispatcher
model (compare `Cells.entry_ok`): the cell id is allocated and an open
cell's referent slot exists. -/
def entry_ok1 (stack : List Value) (cells : List CellState) (kv : Nat × Nat) : Bool :=
  match cells.get? kv.2 with
  | some (.openCell ind) => decide (ind < stack.length)
  | some (.closed _) => true
  | none => false

/-- All open-upvalue entries at or above `bottom` satisfy the close-sweep
precondition. -/
def sweep_ok (s : ThreadState) (bottom : Nat) : Prop :=
  ∀ kv ∈ s.open_upvalues.filter (fun kv => decide (bottom ≤ kv.1)),
    entry_ok1 s.stack s.cells kv = true

instance (s : ThreadState) (bottom : Nat) : Decidable (sweep_ok s bottom) := by
  unfold sweep_ok
  infer_instance

/-- Every upvalue of `s` whose entry key is at least `bottom` got closed in
`cells'` with the value its referent slot held in `s`. -/
def cells_closed_at (s : ThreadState) (cells' : List CellState) (bottom : Nat) : Prop :=
  ∀ k cid ind, (k, cid) ∈ s.open_upvalues → bottom ≤ k →
    s.cells.get? cid = some (.openCell ind) →
    ∃ v, s.stack.get? ind = some v ∧ cells'.get? cid = some (.closed v)

/-- Embeds thread.rs `closure_call`: place the fixed/overflow argument
regions, grow the stack to the prototype's size and push a Lua frame. -/
def closure_call (env : Env) (s : ThreadState) (function_index : Nat)
    (args : VarCount) (frame_return : FrameReturn) : Option ThreadState :=
  match s.stack.get? function_index with
  | some (.closure cid) =>
    match env.protos.get? cid with
    | none => none
    | some proto =>
      let arg_count := match args.to_constant with
        | some c => c
        | none => s.stack.length - function_index - 1
      let fixed_params := proto.fixed_params
      let stBase : Option (List Value × Nat) :=
        if arg_count > fixed_params then
          let st := truncate s.stack (function_index + 1 + arg_count)
          let region := st.drop (function_index + 1)
          if fixed_params ≤ region.length then
            some (st.take (function_index + 1) ++
                    (region.drop fixed_params ++ region.take fixed_params),
                  function_index + 1 + (arg_count - fixed_params))
          else none
        else some (s.stack, function_index + 1)
      match stBase with
      | none => none
      | some (st1, base) =>
        let top := base + proto.stack_size
        some { s with
               stack := resize st1 top,
               frames := { bottom := function_index, top := top,
                           frame_type := .lua base 0,
                           frame_return := frame_return } :: s.frames }
  | _ => none

/-- Embeds thread.rs `callback_call`: invoke the callback synchronously
and handle its `Return`/`Yield`/`Continue` result. The inner `none` of a
successful result means the dispatcher continues (`continue 'start`). -/
def callback_call (env : Env) (s : ThreadState) (function_index : Nat)
    (args : VarCount) (frame_return : FrameReturn) :
    Option (ThreadState × Option StepOut) :=
  match s.stack.get? function_index with
  | some (.callback cb) =>
    let arg_count := match args.to_constant with
      | some c => c
      | none => s.stack.length - function_index - 1
    if function_index + 1 + arg_count ≤ s.stack.length then
      let argVals := (s.stack.drop (function_index + 1)).take arg_count
      match env.callbackCall cb argVals with
      | .errA e => some (s, some (.errorRes e))
      | .ret res =>
        match frame_return with
        | .callBoundary => some (s, some (.finish res))
        | .upper returns =>
          match returns.to_constant with
          | some returning =>
            let st0 := match s.frames.head? with
              | some fr => resize s.stack fr.top
              | none => s.stack
            match write_list st0 (res.take (min returning res.length))
                    function_index with
            | none => none
            | some st1 =>
              match fill_nil (returning - res.length) st1
                      (function_index + res.length) with
              | none => none
              | some st2 => some ({ s with stack := st2 }, none)
          | none =>
            let st0 := resize s.stack (function_index + res.length)
            match write_list st0 res function_index with
            | none => none
            | some st1 => some ({ s with stack := st1 }, none)
      | .yieldA res =>
        some ({ s with
                frames := { bottom := function_index, top := function_index,
                            frame_type := .yield,
                            frame_return := frame_return } :: s.frames,
                stack := resize s.stack function_index },
              some (.finish res))
      | .continueA k =>
        match frame_return with
        | .callBoundary => some (s, some (.continueThread k))
        | .upper returns =>
          some ({ s with
                  frames := { bottom := function_index, top := function_index,
                              frame_type := .callback k,
                              frame_return := .upper returns } :: s.frames,
                  stack := resize s.stack function_index },
                none)
    else none
  | _ => none

/-- Embeds thread.rs `function_call`: dispatch on closure vs callback; any
other value is the `"not a closure or callback"` panic. -/
def function_call (env : Env) (s : ThreadState) (function_index : Nat)
    (args : VarCount) (frame_return : FrameReturn) :
    Option (ThreadState × Option StepOut) :=
  match s.stack.get? function_index with
  | some (.closure _) =>
    (closure_call env s function_index args frame_return).map (fun s' => (s', none))
  | some (.callback _) => callback_call env s function_index args frame_return
  | _ => none

/-- Embeds one arm of the dispatcher's opcode `match` in `step_lua`. The
state `s` already holds the incremented `pc` (the source mutates `*pc` at
fetch time); `stack_bottom`, `base` and `frame_return` are the values read
from the current frame at the top of the `'start` loop. -/
def exec_op (env : Env) (proto : FunctionProto) (op : OpCode) (s : ThreadState)
    (stack_bottom : Nat) (base : Nat) (pc : Nat) (frame_return : FrameReturn) :
    Exec1Res :=
  match op with
  | .move dest source =>
    match s.stack.get? (base + source) with
    | none => .returned s .crash
    | some v =>
      match stack_set s.stack (base + dest) v with
      | none => .returned s .crash
      | some st => .fellThrough { s with stack := st }
  | .loadConstant dest constant =>
    match proto.constants.get? constant with
    | none => .returned s .crash
    | some v =>
      match stack_set s.stack (base + dest) v with
      | none => .returned s .crash
      | some st => .fellThrough { s with stack := st }
  | .loadBool dest value skip_next =>
    match stack_set s.stack (base + dest) (.boolean value) with
    | none => .returned s .crash
    | some st =>
      let s1 := { s with stack := st }
      .fellThrough (if skip_next then set_pc s1 base (pc + 1) else s1)
  | .loadNil dest count =>
    match fill_nil count s.stack (base + dest) with
    | none => .returned s .crash
    | some st => .fellThrough { s with stack := st }
  | .jump offset close_upvals =>
    match add_offset pc offset with
    | none => .returned s .crash
    | some pc1 =>
      let s1 := set_pc s base pc1
      match close_upvals with
      | none => .fellThrough s1
      | some r =>
        match close_upvalues s1 (base + r) with
        | none => .returned s .crash
        | some s2 => .fellThrough s2
  | .test value is_true =>
    match s.stack.get? (base + value) with
    | none => .returned s .crash
    | some v =>
      .fellThrough (if v.to_bool = is_true then set_pc s base (pc + 1) else s)
  | .call func args returns =>
    match function_call env s (base + func) args (.upper returns) with
    | none => .returned s .crash
    | some (s1, some r) => .returned s1 r
    | some (s1, none) => .restarted s1
  | .tailCall func args =>
    match close_upvalues s stack_bottom with
    | none => .returned s .crash
    | some s1 =>
      let fidx := base + func
      let arg_len? : Option Nat := match args.to_constant with
        | some a => some a
        | none =>
          if fidx + 1 ≤ s1.stack.length then some (s1.stack.length - fidx - 1)
          else none
      match arg_len? with
      | none => .returned s .crash
      | some arg_len =>
        match s1.stack.get? fidx with
        | none => .returned s .crash
        | some fv =>
          match stack_set s1.stack stack_bottom fv with
          | none => .returned s .crash
          | some st1 =>
            match copy_slots arg_len st1 (stack_bottom + 1) (fidx + 1) with
            | none => .returned s .crash
            | some st2 =>
              let s2 := { s1 with
                          stack := truncate st2 (stack_bottom + 1 + arg_len),
                          frames := s1.frames.tail }
              match function_call env s2 stack_bottom args frame_return with
              | none => .returned s .crash
              | some (s3, some r) => .returned s3 r
              | some (s3, none) => .restarted s3
  | .ret start count =>
    match close_upvalues s stack_bottom with
    | none => .returned s .crash
    | some s1 =>
      let s2 := { s1 with frames := s1.frames.tail }
      let start1 := base + start
      let count? : Option Nat := match count.to_constant with
        | some c => some c
        | none =>
          if start1 ≤ s2.stack.length then some (s2.stack.length - start1)
          else none
      match count? with
      | none => .returned s .crash
      | some cnt =>
        match frame_return with
        | .callBoundary =>
          if start1 + cnt ≤ s2.stack.length then
            let ret_vals := (s2.stack.drop start1).take cnt
            let st1 := match s2.frames.head? with
              | some f => resize s2.stack f.top
              | none => []
            .returned { s2 with stack := st1 } (.finish ret_vals)
          else .returned s .crash
        | .upper rv =>
          let returning := match rv.to_constant with
            | some c => c
            | none => cnt
          match copy_slots (min returning cnt) s2.stack stack_bottom start1 with
          | none => .returned s .crash
          | some st1 =>
            match fill_nil (returning - cnt) st1 (stack_bottom + cnt) with
            | none => .returned s .crash
            | some st2 =>
              if rv.is_variable then
                .restarted { s2 with stack := truncate st2 (stack_bottom + returning) }
              else
                match s2.frames.head? with
                | some f => .restarted { s2 with stack := resize st2 f.top }
                | none => .returned s .crash
  | .numericForPrep bReg jmp =>
    match s.stack.get? (base + bReg), s.stack.get? (base + bReg + 2) with
    | some v0, some v2 =>
      match v0.subtract v2 with
      | none => .returned s .crash
      | some v =>
        match stack_set s.stack (base + bReg) v with
        | none => .returned s .crash
        | some st =>
          match add_offset pc jmp with
          | none => .returned s .crash
          | some pc1 => .fellThrough (set_pc { s with stack := st } base pc1)
    | _, _ => .returned s .crash
  | .numericForLoop bReg jmp =>
    match s.stack.get? (base + bReg), s.stack.get? (base + bReg + 2) with
    | some v0, some v2 =>
      match v0.add v2 with
      | none => .returned s .crash
      | some a1 =>
        match stack_set s.stack (base + bReg) a1 with
        | none => .returned s .crash
        | some st1 =>
          match v2.less_than (.integer 0) with
          | none => .returned s .crash
          | some neg =>
            match st1.get? (base + bReg + 1) with
            | none => .returned s .crash
            | some limit =>
              match (if neg then a1.less_than limit else limit.less_than a1) with
              | none => .returned s .crash
              | some past_end =>
                if past_end then .fellThrough { s with stack := st1 }
                else
                  match add_offset pc jmp with
                  | none => .returned s .crash
                  | some pc1 =>
                    match stack_set st1 (base + bReg + 3) a1 with
                    | none => .returned s .crash
                    | some st2 =>
                      .fellThrough (set_pc { s with stack := st2 } base pc1)
    | _, _ => .returned s .crash
  | .addRR dest left right =>
    match s.stack.get? (base + left), s.stack.get? (base + right) with
    | some l, some r =>
      match l.add r with
      | none => .returned s .crash
      | some v =>
        match stack_set s.stack (base + dest) v with
        | none => .returned s .crash
        | some st => .fellThrough { s with stack := st }
    | _, _ => .returned s .crash
  | .eqRR skip_if left right =>
    match s.stack.get? (base + left), s.stack.get? (base + right) with
    | some l, some r =>
      .fellThrough (if (decide (l = r)) = skip_if then set_pc s base (pc + 1) else s)
    | _, _ => .returned s .crash

/-- Embeds one iteration of the interpreter: read the top frame (which
must be a Lua frame), fetch the opcode at its pc, store the incremented
pc, and execute the opcode. -/
def exec1 (env : Env) (s : ThreadState) : Exec1Res :=
  match s.frames with
  | [] => .returned s .crash
  | fr :: _ =>
    match fr.frame_type with
    | .lua base pc =>
      match s.stack.get? fr.bottom with
      | some (.closure cid) =>
        match env.protos.get? cid with
        | some proto =>
          match proto.opcodes.get? pc with
          | some op =>
            exec_op env proto op (set_pc s base (pc + 1)) fr.bottom base (pc + 1)
              fr.frame_return
          | none => .returned s .crash
        | none => .returned s .crash
      | _ => .returned s .crash
    | _ => .returned s .crash

/-- Embeds thread.rs `step_lua` with an explicit structural fuel (`none`
means the fuel ran out, never that the source diverged differently).
`instructions` is the remaining budget: after an opcode falls through, the
source returns `None` when the budget is zero and decrements otherwise. -/
def step_lua (env : Env) : Nat → ThreadState → Nat → Option (ThreadState × StepOut)
  | 0, _, _ => none
  | fuel + 1, s, instructions =>
    match exec1 env s with
    | .returned s1 r => some (s1, r)
    | .restarted s1 => step_lua env fuel s1 instructions
    | .fellThrough s1 =>
      if instructions = 0 then some (s1, .notDone)
      else step_lua env fuel s1 (instructions - 1)

/-- Embeds the frame-popping loop of thread.rs `unwind`: pop until a
CallBoundary frame is popped; `none` is the `"no call boundary found"`
panic. Returns the boundary frame and the remaining frames. -/
def unwind_frames : List Frame → Option (Frame × List Frame)
  | [] => none
  | f :: rest =>
    if f.frame_return = .callBoundary then some (f, rest) else unwind_frames rest

/-- Embeds thread.rs `unwind`: pop frames up to and including the nearest
call boundary, close upvalues at the boundary frame's bottom, then resize
the stack to the new top frame's top when one remains. -/
def unwind (s : ThreadState) : Option ThreadState :=
  match unwind_frames s.frames with
  | none => none
  | some (bf, rest) =>
    match close_upvalues { s with frames := rest } bf.bottom with
    | none => none
    | some s1 =>
      some (match rest.head? with
            | some f => { s1 with stack := resize s1.stack f.top }
            | none => s1)

/-- Embeds thread.rs `step_callback`: drive the stored continuation of the
top Callback frame exactly once and handle its result. -/
def step_callback (env : Env) (s : ThreadState) : ThreadState × StepOut :=
  match s.frames with
  | [] => (s, .crash)
  | f :: rest =>
    match f.frame_type with
    | .callback k =>
      match env.contStep k with
      | none => (s, .notDone)
      | some (.errA e) =>
        match unwind s with
        | none => (s, .crash)
        | some s1 => (s1, .errorRes e)
      | some (.continueA k1) =>
        ({ s with frames := { f with frame_type := .callback k1 } :: rest }, .notDone)
      | some (.yieldA res) =>
        ({ s with frames := { f with frame_type := .yield } :: rest }, .finish res)
      | some (.ret res) =>
        match f.frame_return with
        | .callBoundary => (s, .crash)
        | .upper returns =>
          let return_len := match returns.to_constant with
            | some c => c
            | none => res.length
          let st1 := resize (truncate s.stack f.bottom) (f.bottom + return_len)
          match write_list st1 (res.take (min return_len res.length)) f.bottom with
          | none => (s, .crash)
          | some st2 =>
            if returns.is_variable then
              ({ s with stack := st2, frames := rest }, .notDone)
            else
              match rest.head? with
              | some f2 => ({ s with stack := resize st2 f2.top, frames := rest }, .notDone)
              | none => (s, .crash)
    | _ => (s, .crash)

/-- Embeds thread.rs `fn step`: dispatch on the type of the top frame. -/
def thread_step (env : Env) (fuel : Nat) (s : ThreadState) (granularity : Nat) :
    Option (ThreadState × StepOut) :=
  match s.frames.head? with
  | none => some (s, .crash)
  | some fr =>
    match fr.frame_type with
    | .lua _ _ => step_lua env fuel s granularity
    | .callback _ => some (step_callback env s)
    | .yield => some (s, .crash)

/-- The mutable fields of a `ThreadSequence` (the thread reference is the
state passed alongside). -/
structure ThreadSequence where
  frame_top : Nat
  granularity : Nat
  deriving DecidableEq, Repr

/-- Embeds thread.rs `sequence_closure`: push the closure and arguments at
the current stack top, install a CallBoundary Lua frame and remember the
frame depth. `none` covers the zero-granularity assertion and closure-call
panics. -/
def sequence_closure (env : Env) (s : ThreadState) (closure : Nat)
    (args : List Value) (granularity : Nat) :
    Option (ThreadState × ThreadSequence) :=
  if granularity = 0 then none
  else
    let closure_index := s.stack.length
    let s1 := { s with stack := s.stack ++ Value.closure closure :: args }
    match closure_call env s1 closure_index .variadic .callBoundary with
    | none => none
    | some s2 =>
      some (s2, { frame_top := s2.frames.length, granularity := granularity })

/-- Embeds `ThreadSequence::step`: check the LIFO frame-depth invariant,
step the thread, and remember the new depth. -/
def thread_sequence_step (env : Env) (fuel : Nat) (ts : ThreadSequence)
    (s : ThreadState) : Option ((ThreadState × StepOut) × ThreadSequence) :=
  if ts.frame_top ≠ s.frames.length then some ((s, .crash), ts)
  else
    (thread_step env fuel s ts.granularity).map
      (fun r => (r, { ts with frame_top := r.1.frames.length }))

/-- Drive `step_lua` for up to `m` slices of budget `g`, stopping at the
first slice that finishes with values (`none`: ran out of slices or the
run ended in error, crash, continuation, or fuel exhaustion). -/
def run_slices (env : Env) (fuel g : Nat) :
    Nat → ThreadState → Option (ThreadState × List Value)
  | 0, _ => none
  | m + 1, s =>
    match step_lua env fuel s g with
    | some (s1, .notDone) => run_slices env fuel g m s1
    | some (s1, .finish vals) => some (s1, vals)
    | _ => none

/-- The thread state after `n` scheduler steps (`thread_step`) with budget
`g`; steps that run out of fuel leave the state unchanged. -/
def drive_states (env : Env) (fuel g : Nat) : Nat → ThreadState → ThreadState
  | 0, s => s
  | n + 1, s =>
    match thread_step env fuel s g with
    | some (s1, _) => drive_states env fuel g n s1
    | none => s

/-- Invariant of claim C10: every Callback frame on the stack has an
`Upper` frame return. -/
def cbu (frames : List Frame) : Bool :=
  frames.all fun f =>
    match f.frame_type with
    | .callback _ =>
      match f.frame_return with
      | .upper _ => true
      | .callBoundary => false
    | _ => true

/-- The thread state carried by a dispatcher-iteration result. -/
def res_state : Exec1Res → ThreadState
  | .fellThrough s => s
  | .restarted s => s
  | .returned s _ => s

/-- The pc of the top frame when it is a Lua frame. -/
def pc_of (s : ThreadState) : Option Nat :=
  match s.frames.head? with
  | some f =>
    match f.frame_type with
    | .lua _ pc => some pc
    | _ => none
  | none => none

/-! ## Concrete fixtures

Closed environments and states used by witnesses, counterexamples and the
code-bug evidence below. -/

/-- A prototype of three `Move` opcodes and a `Return`, with trivial
callback tables. -/
def env_moves : Env :=
  { protos := [⟨[.move 1 0, .move 1 0, .move 1 0, .ret 0 (.constant 0)], [], [], 0, 4⟩],
    callbackCall := fun _ _ => .ret [],
    contStep := fun _ => none }

/-- The thread state `sequence_closure` builds for `env_moves` on an empty
thread with granularity 1. -/
def s_moves : ThreadState :=
  ⟨[.closure 0, .nil, .nil, .nil, .nil], [⟨0, 5, .lua 1 0, .callBoundary⟩], [], []⟩

/-- A prototype whose first opcode tail-calls register 0, over an
environment whose callback returns immediately with no values. -/
def env_tail : Env :=
  { protos := [⟨[.tailCall 0 (.constant 0)], [], [], 0, 2⟩],
    callbackCall := fun _ _ => .ret [],
    contStep := fun _ => none }

/-- A state about to tail-call the callback value in register 0. -/
def s_tail : ThreadState :=
  ⟨[.closure 0, .callback 0], [⟨0, 2, .lua 1 0, .callBoundary⟩], [], []⟩

/-- A prototype whose first opcode is `NumericForLoop{base 0, jump -1}`. -/
def env_forloop : Env :=
  { protos := [⟨[.numericForLoop 0 (-1)], [], [], 0, 4⟩],
    callbackCall := fun _ _ => .ret [],
    contStep := fun _ => none }

/-- A for-loop state where the updated control value will equal the limit:
R[base] = 2, limit 1, step -1, loop variable register holding 99. -/
def s_forloop : ThreadState :=
  ⟨[.closure 0, .integer 2, .integer 1, .integer (-1), .integer 99],
   [⟨0, 5, .lua 1 0, .callBoundary⟩], [], []⟩

/-- The state `exec1` produces from `s_forloop`: the loop continued. -/
def s_forloop_after : ThreadState :=
  ⟨[.closure 0, .integer 1, .integer 1, .integer (-1), .integer 1],
   [⟨0, 5, .lua 1 0, .callBoundary⟩], [], []⟩

/-- A thread with a single CallBoundary frame and a two-slot stack, about
to unwind. -/
def s_unwind : ThreadState :=
  ⟨[.nil, .nil], [⟨0, 2, .lua 1 0, .callBoundary⟩], [], []⟩

/-- A prototype whose first opcode is `Return{start 0, count 2}`. -/
def env_ret : Env :=
  { protos := [⟨[.ret 0 (.constant 2)], [], [], 0, 3⟩, ⟨[], [], [], 0, 2⟩],
    callbackCall := fun _ _ => .ret [],
    contStep := fun _ => none }

/-- A state with an inner frame returning two values into an
`Upper(constant 1)` frame return, above a CallBoundary frame, with one
open upvalue captured inside the returning frame. -/
def s_ret : ThreadState :=
  ⟨[.closure 1, .nil, .closure 0, .integer 7, .integer 8, .integer 9],
   [⟨2, 6, .lua 3 0, .upper (.constant 1)⟩, ⟨0, 4, .lua 1 5, .callBoundary⟩],
   [(4, 0)], [.openCell 4]⟩

/-! ## Helper lemmas -/

theorem stack_set_spec {st : List Value} {i : Nat} {v : Value} {st' : List Value}
    (h : stack_set st i v = some st') :
    st'.length = st.length ∧ st'.get? i = some v ∧
      ∀ j, j ≠ i → st'.get? j = st.get? j := by
  unfold stack_set at h
  split at h
  case isTrue hi =>
    cases h
    refine ⟨List.length_set .., ?_, ?_⟩
    · exact List.get?_set_eq_of_lt _ hi
    · intro j hj
      exact List.get?_set_ne _ _ (fun hh => hj hh.symm)
  case isFalse => cases h

theorem stack_set_exists {st : List Value} {i : Nat} (v : Value)
    (h : i < st.length) : ∃ st', stack_set st i v = some st' := by
  unfold stack_set
  simp [h]

theorem resize_length (st : List Value) (n : Nat) : (resize st n).length = n := by
  unfold resize
  split
  case isTrue h => simp; omega
  case isFalse h => simp; omega

theorem copy_slots_spec :
    ∀ (n : Nat) (st : List Value) (dst src : Nat), dst ≤ src →
      src + n ≤ st.length →
      ∃ st', copy_slots n st dst src = some st' ∧ st'.length = st.length ∧
        (∀ i, i < n → st'.get? (dst + i) = st.get? (src + i)) ∧
        (∀ j, j < dst ∨ dst + n ≤ j → st'.get? j = st.get? j) := by
  intro n
  induction n with
  | zero =>
    intro st dst src _ _
    exact ⟨st, rfl, rfl, fun i hi => absurd hi (Nat.not_lt_zero i),
      fun j _ => rfl⟩
  | succ n ih =>
    intro st dst src hds hlen
    have hsrc : src < st.length := by omega
    have hv : st.get? src = some (st.get ⟨src, hsrc⟩) := List.get?_eq_get hsrc
    have hdst : dst < st.length := by omega
    obtain ⟨st1, hst1⟩ := stack_set_exists (st.get ⟨src, hsrc⟩) hdst
    obtain ⟨hlen1, hget1, hne1⟩ := stack_set_spec hst1
    obtain ⟨st2, hrec, hlen2, hcopy2, hout2⟩ :=
      ih st1 (dst + 1) (src + 1) (by omega) (by omega)
    refine ⟨st2, ?_, by omega, ?_, ?_⟩
    · unfold copy_slots
      simp only [hv, hst1]
      exact hrec
    · intro i hi
      cases i with
      | zero =>
        have h1 : st2.get? dst = st1.get? dst := hout2 dst (Or.inl (by omega))
        rw [Nat.add_zero, Nat.add_zero, h1, hget1, hv]
      | succ i =>
        have e1 : dst + (i + 1) = dst + 1 + i := by omega
        have e2 : src + (i + 1) = src + 1 + i := by omega
        rw [e1, e2, hcopy2 i (by omega), hne1 _ (by omega)]
    · intro j hj
      rw [hout2 j (by omega), hne1 j (by omega)]

theorem fill_nil_spec :
    ∀ (n : Nat) (st : List Value) (dst : Nat), dst + n ≤ st.length →
      ∃ st', fill_nil n st dst = some st' ∧ st'.length = st.length ∧
        (∀ i, i < n → st'.get? (dst + i) = some .nil) ∧
        (∀ j, j < dst ∨ dst + n ≤ j → st'.get? j = st.get? j) := by
  intro n
  induction n with
  | zero =>
    intro st dst _
    exact ⟨st, rfl, rfl, fun i hi => absurd hi (Nat.not_lt_zero i), fun j _ => rfl⟩
  | succ n ih =>
    intro st dst hlen
    have hdst : dst < st.length := by omega
    obtain ⟨st1, hst1⟩ := stack_set_exists Value.nil hdst
    obtain ⟨hlen1, hget1, hne1⟩ := stack_set_spec hst1
    obtain ⟨st2, hrec, hlen2, hfill2, hout2⟩ := ih st1 (dst + 1) (by omega)
    refine ⟨st2, ?_, by omega, ?_, ?_⟩
    · unfold fill_nil
      simp only [hst1]
      exact hrec
    · intro i hi
      cases i with
      | zero =>
        have h1 : st2.get? dst = st1.get? dst := hout2 dst (Or.inl (by omega))
        rw [Nat.add_zero, h1, hget1]
      | succ i =>
        have e1 : dst + (i + 1) = dst + 1 + i := by omega
        rw [e1, hfill2 i (by omega)]
    · intro j hj
      rw [hout2 j (by omega), hne1 j (by omega)]

theorem close_cells_spec :
    ∀ (l : List (Nat × Nat)) (cs : List CellState) (stack : List Value),
      (∀ kv ∈ l, entry_ok1 stack cs kv = true) →
      ∃ cs', close_cells stack cs l = some cs' ∧ cs'.length = cs.length ∧
        (∀ cid, (∀ k, (k, cid) ∉ l) → cs'.get? cid = cs.get? cid) ∧
        (∀ k cid ind, (k, cid) ∈ l → cs.get? cid = some (.openCell ind) →
          ∃ v, stack.get? ind = some v ∧ cs'.get? cid = some (.closed v)) ∧
        (∀ cid v, cs.get? cid = some (.closed v) → cs'.get? cid = some (.closed v)) := by
  intro l
  induction l with
  | nil =>
    intro cs stack _
    exact ⟨cs, rfl, rfl, fun _ _ => rfl, fun k cid ind hmem => absurd hmem (by simp),
      fun _ _ h => h⟩
  | cons kv0 rest ih =>
    obtain ⟨k0, c0⟩ := kv0
    intro cs stack hok
    have hok0 : entry_ok1 stack cs (k0, c0) = true := hok _ (List.mem_cons_self _ _)
    unfold entry_ok1 at hok0
    cases hc0 : cs.get? c0 with
    | none => rw [hc0] at hok0; cases hok0
    | some cell =>
      rw [hc0] at hok0
      have hc0lt : c0 < cs.length := by
        have := List.get?_eq_some.mp hc0
        exact this.1
      cases cell with
      | closed v0 =>
        obtain ⟨cs', hrec, hlen, huntouched, hclosing, hpres⟩ :=
          ih cs stack (fun kv hkv => hok kv (List.mem_cons_of_mem _ hkv))
        refine ⟨cs', ?_, hlen, ?_, ?_, hpres⟩
        · unfold close_cells
          simp only [hc0]
          exact hrec
        · intro cid hnot
          exact huntouched cid (fun k hk => hnot k (List.mem_cons_of_mem _ hk))
        · intro k cid ind hmem hopen
          rcases List.mem_cons.mp hmem with heq | hrest
          · obtain ⟨hkk, hcc⟩ := Prod.mk.injEq .. ▸ heq
            rw [hcc] at hopen
            rw [hc0] at hopen
            cases hopen
          · exact hclosing k cid ind hrest hopen
      | openCell ind0 =>
        have hind0 : ind0 < stack.length := of_decide_eq_true hok0
        have hv0 : stack.get? ind0 = some (stack.get ⟨ind0, hind0⟩) :=
          List.get?_eq_get hind0
        have hok1 : ∀ kv ∈ rest,
            entry_ok1 stack (cs.set c0 (.closed (stack.get ⟨ind0, hind0⟩))) kv = true := by
          intro kv hkv
          unfold entry_ok1
          by_cases hcc : kv.2 = c0
          · rw [hcc, List.get?_set_eq_of_lt _ hc0lt]
          · rw [List.get?_set_ne _ _ (fun hh => hcc hh.symm)]
            exact hok kv (List.mem_cons_of_mem _ hkv)
        obtain ⟨cs', hrec, hlen, huntouched, hclosing, hpres⟩ :=
          ih (cs.set c0 (.closed (stack.get ⟨ind0, hind0⟩))) stack hok1
        have hset_at : (cs.set c0 (.closed (stack.get ⟨ind0, hind0⟩))).get? c0 =
            some (.closed (stack.get ⟨ind0, hind0⟩)) :=
          List.get?_set_eq_of_lt _ hc0lt
        refine ⟨cs', ?_, by rw [hlen, List.length_set], ?_, ?_, ?_⟩
        · unfold close_cells
          simp only [hc0, hv0]
          exact hrec
        · intro cid hnot
          have hne : cid ≠ c0 := by
            intro hh
            exact hnot k0 (hh ▸ List.mem_cons_self _ _)
          rw [huntouched cid (fun k hk => hnot k (List.mem_cons_of_mem _ hk)),
            List.get?_set_ne _ _ (fun hh => hne hh.symm)]
        · intro k cid ind hmem hopen
          by_cases hcc : cid = c0
          · rw [hcc] at hopen
            rw [hc0] at hopen
            injection hopen with hcell
            injection hcell with hind
            refine ⟨stack.get ⟨ind0, hind0⟩, hind ▸ hv0, ?_⟩
            rw [hcc]
            exact hpres c0 _ hset_at
          · rcases List.mem_cons.mp hmem with heq | hrest
            · obtain ⟨hkk, hcc2⟩ := Prod.mk.injEq .. ▸ heq
              exact absurd hcc2 hcc
            · refine hclosing k cid ind hrest ?_
              rw [List.get?_set_ne _ _ (fun hh => hcc hh.symm)]
              exact hopen
        · intro cid v hclosed
          have hne : cid ≠ c0 := by
            intro hh
            rw [hh, hc0] at hclosed
            cases hclosed
          refine hpres cid v ?_
          rw [List.get?_set_ne _ _ (fun hh => hne hh.symm)]
          exact hclosed

theorem close_upvalues_spec {s : ThreadState} {bottom : Nat} (h : sweep_ok s bottom) :
    ∃ s', close_upvalues s bottom = some s' ∧
      s'.stack = s.stack ∧ s'.frames = s.frames ∧
      s'.open_upvalues = s.open_upvalues.filter (fun kv => decide (kv.1 < bottom)) ∧
      s'.cells.length = s.cells.length ∧
      cells_closed_at s s'.cells bottom ∧
      (∀ cid, (∀ k, (k, cid) ∈ s.open_upvalues → k < bottom) →
        s'.cells.get? cid = s.cells.get? cid) := by
  obtain ⟨cs', hrec, hlen, huntouched, hclosing, _⟩ :=
    close_cells_spec (s.open_upvalues.filter (fun kv => decide (bottom ≤ kv.1)))
      s.cells s.stack h
  refine ⟨{ s with
            open_upvalues := s.open_upvalues.filter (fun kv => decide (kv.1 < bottom)),
            cells := cs' }, ?_, rfl, rfl, rfl, hlen, ?_, ?_⟩
  · unfold close_upvalues
    rw [hrec]
    rfl
  · intro k cid ind hmem hbot hopen
    refine hclosing k cid ind ?_ hopen
    rw [List.mem_filter]
    exact ⟨hmem, decide_eq_true hbot⟩
  · intro cid hall
    refine huntouched cid ?_
    intro k hk
    rw [List.mem_filter] at hk
    have := hall k hk.1
    have := of_decide_eq_true hk.2
    omega

theorem cells_slot_read (stackOf : Nat → List Value) (selfT t i : Nat) :
    (if t = selfT then (stackOf selfT).get? i else (stackOf t).get? i) =
      (stackOf t).get? i := by
  split
  case isTrue h => rw [h]
  case isFalse => rfl

theorem cells_close_cells_spec (stackOf : Nat → List Value) (selfT : Nat) :
    ∀ (l : List (Nat × Nat)) (cells : Nat → Cells.UpValueState),
      (∀ kv ∈ l, Cells.entry_ok stackOf cells kv = true) →
      ∃ cells', Cells.close_cells stackOf selfT cells l = some cells' ∧
        (∀ cid, (∀ k, (k, cid) ∉ l) → cells' cid = cells cid) ∧
        (∀ k cid t i, (k, cid) ∈ l → cells cid = .openUv t i →
          ∃ v, (stackOf t).get? i = some v ∧ cells' cid = .closed v) ∧
        (∀ cid v, cells cid = .closed v → cells' cid = .closed v) := by
  intro l
  induction l with
  | nil =>
    intro cells _
    exact ⟨cells, rfl, fun _ _ => rfl, fun k cid t i hmem => absurd hmem (by simp),
      fun _ _ h => h⟩
  | cons kv0 rest ih =>
    obtain ⟨k0, c0⟩ := kv0
    intro cells hok
    have hok0 : Cells.entry_ok stackOf cells (k0, c0) = true :=
      hok _ (List.mem_cons_self _ _)
    unfold Cells.entry_ok at hok0
    cases hc0 : cells c0 with
    | closed v0 =>
      obtain ⟨cells', hrec, huntouched, hclosing, hpres⟩ :=
        ih cells (fun kv hkv => hok kv (List.mem_cons_of_mem _ hkv))
      refine ⟨cells', ?_, ?_, ?_, hpres⟩
      · unfold Cells.close_cells
        simp only [hc0]
        exact hrec
      · intro cid hnot
        exact huntouched cid (fun k hk => hnot k (List.mem_cons_of_mem _ hk))
      · intro k cid t i hmem hopen
        rcases List.mem_cons.mp hmem with heq | hrest
        · obtain ⟨hkk, hcc⟩ := Prod.mk.injEq .. ▸ heq
          rw [hcc, hc0] at hopen
          cases hopen
        · exact hclosing k cid t i hrest hopen
    | openUv t0 i0 =>
      rw [hc0] at hok0
      have hi0 : i0 < (stackOf t0).length := of_decide_eq_true hok0
      have hv0 : (stackOf t0).get? i0 = some ((stackOf t0).get ⟨i0, hi0⟩) :=
        List.get?_eq_get hi0
      have hread : (if t0 = selfT then (stackOf selfT).get? i0
          else (stackOf t0).get? i0) = some ((stackOf t0).get ⟨i0, hi0⟩) := by
        rw [cells_slot_read]
        exact hv0
      have hok1 : ∀ kv ∈ rest,
          Cells.entry_ok stackOf
            (fun c => if c = c0 then .closed ((stackOf t0).get ⟨i0, hi0⟩) else cells c)
            kv = true := by
        intro kv hkv
        have hkk := hok kv (List.mem_cons_of_mem _ hkv)
        unfold Cells.entry_ok at hkk ⊢
        by_cases hcc : kv.2 = c0
        · simp [hcc]
        · simp only [if_neg hcc]
          exact hkk
      obtain ⟨cells', hrec, huntouched, hclosing, hpres⟩ := ih _ hok1
      refine ⟨cells', ?_, ?_, ?_, ?_⟩
      · unfold Cells.close_cells
        simp only [hc0, hread]
        exact hrec
      · intro cid hnot
        have hne : cid ≠ c0 := by
          intro hh
          exact hnot k0 (hh ▸ List.mem_cons_self _ _)
        have h1 := huntouched cid (fun k hk => hnot k (List.mem_cons_of_mem _ hk))
        simp only [if_neg hne] at h1
        exact h1
      · intro k cid t i hmem hopen
        by_cases hcc : cid = c0
        · rw [hcc, hc0] at hopen
          injection hopen with ht hi
          refine ⟨(stackOf t0).get ⟨i0, hi0⟩, ?_, ?_⟩
          · rw [← ht, ← hi]
            exact hv0
          · rw [hcc]
            exact hpres c0 _ (by simp)
        · rcases List.mem_cons.mp hmem with heq | hrest
          · obtain ⟨hkk, hcc2⟩ := Prod.mk.injEq .. ▸ heq
            exact absurd hcc2 hcc
          · refine hclosing k cid t i hrest ?_
            simp only [if_neg hcc]
            exact hopen
      · intro cid v hclosed
        have hne : cid ≠ c0 := by
          intro hh
          rw [hh, hc0] at hclosed
          cases hclosed
        refine hpres cid v ?_
        simp only [if_neg hne]
        exact hclosed

theorem cells_close_upvalues_spec (stackOf : Nat → List Value) (selfT : Nat)
    (openUps : List (Nat × Nat)) (cells : Nat → Cells.UpValueState) (bottom : Nat)
    (h : ∀ kv ∈ openUps.filter (fun kv => decide (bottom ≤ kv.1)),
      Cells.entry_ok stackOf cells kv = true) :
    ∃ cells',
      Cells.close_upvalues stackOf selfT openUps cells bottom =
        some (openUps.filter (fun kv => decide (kv.1 < bottom)), cells') ∧
      (∀ k cid t i, (k, cid) ∈ openUps → bottom ≤ k → cells cid = .openUv t i →
        ∃ v, (stackOf t).get? i = some v ∧ cells' cid = .closed v) ∧
      (∀ cid, (∀ k, (k, cid) ∈ openUps → k < bottom) → cells' cid = cells cid) ∧
      (∀ cid v, cells cid = .closed v → cells' cid = .closed v) := by
  obtain ⟨cells', hrec, huntouched, hclosing, hpres⟩ :=
    cells_close_cells_spec stackOf selfT
      (openUps.filter (fun kv => decide (bottom ≤ kv.1))) cells h
  refine ⟨cells', ?_, ?_, ?_, hpres⟩
  · unfold Cells.close_upvalues
    rw [hrec]
    rfl
  · intro k cid t i hmem hbot hopen
    refine hclosing k cid t i ?_ hopen
    rw [List.mem_filter]
    exact ⟨hmem, decide_eq_true hbot⟩
  · intro cid hall
    refine huntouched cid ?_
    intro k hk
    rw [List.mem_filter] at hk
    have := hall k hk.1
    have := of_decide_eq_true hk.2
    omega

/-! ## Preprocessor lemmas (claim C9) -/

theorem drop_find_newline (l : List Nat) :
    l.drop (find_newline l) = l.dropWhile (fun c => decide (c ≠ 10)) := by
  induction l with
  | nil => rfl
  | cons b rest ih =>
    unfold find_newline
    by_cases hb : b = 10
    · simp [hb, List.dropWhile]
    · simp only [if_neg hb, List.drop_succ_cons, List.dropWhile]
      rw [ih]
      simp [hb]

theorem dropWhile_of_find_newline_zero {l : List Nat} (h : find_newline l = 0) :
    l.dropWhile (fun c => decide (c ≠ 10)) = l := by
  cases l with
  | nil => rfl
  | cons b rest =>
    unfold find_newline at h
    by_cases hb : b = 10
    · simp [List.dropWhile, hb]
    · rw [if_neg hb] at h
      cases h

theorem find_newline_dropWhile (l : List Nat) :
    find_newline (l.dropWhile (fun c => decide (c ≠ 10))) = 0 := by
  induction l with
  | nil => rfl
  | cons b rest ih =>
    by_cases hb : b = 10
    · simp [List.dropWhile, hb, find_newline]
    · simpa [List.dropWhile, hb] using ih

theorem consume_shebang_eq (l : List Nat) :
    consume_shebang l = l.dropWhile (fun c => decide (c ≠ 10)) := by
  rw [consume_shebang]
  split
  case isTrue h => exact (dropWhile_of_find_newline_zero h).symm
  case isFalse h =>
    show consume_shebang (l.drop (find_newline l)) = _
    rw [drop_find_newline, consume_shebang, dif_pos (find_newline_dropWhile l)]

theorem take3_iff (input : List Nat) :
    input.take 3 = [0xef, 0xbb, 0xbf] ↔
      (3 ≤ input.length ∧ input.get? 0 = some 0xef ∧ input.get? 1 = some 0xbb ∧
        input.get? 2 = some 0xbf) := by
  rcases input with _ | ⟨a, _ | ⟨b, _ | ⟨c, rest⟩⟩⟩ <;>
    simp [List.take, List.get?]

theorem shebang_part_eq (l : List Nat) :
    (if 1 ≤ l.length ∧ l.get? 0 = some 35 then consume_shebang (l.drop 1) else l) =
      shebang_spec l := by
  unfold shebang_spec
  cases l with
  | nil => simp
  | cons b t =>
    by_cases hb : b = 35
    · rw [if_pos ⟨by simp, by simp [hb]⟩]
      simp only [hb, if_pos rfl, List.drop_succ_cons, List.drop_zero]
      exact consume_shebang_eq t
    · rw [if_neg (fun hc => hb (by simpa using hc.2))]
      simp [hb]

theorem bom_skip_pos {input : List Nat} (h : input.take 3 = [0xef, 0xbb, 0xbf]) :
    bom_skip input = input.drop 3 := by
  unfold bom_skip
  rw [if_pos ((take3_iff input).mp h)]

theorem bom_skip_neg {input : List Nat} (h : ¬input.take 3 = [0xef, 0xbb, 0xbf]) :
    bom_skip input = input := by
  unfold bom_skip
  rw [if_neg (fun hc => h ((take3_iff input).mpr hc))]

theorem strip_prelude_eq (input : List Nat) :
    strip_prelude input = strip_prelude_spec input := by
  unfold strip_prelude strip_prelude_spec
  by_cases hbom : input.take 3 = [0xef, 0xbb, 0xbf]
  · rw [bom_skip_pos hbom, if_pos hbom]
    exact shebang_part_eq _
  · rw [bom_skip_neg hbom, if_neg hbom]
    exact shebang_part_eq _

/-- C9: for every input byte stream, skip_prefix consumes a leading
`EF BB BF` when present, then, if the next byte is `#`, consumes that byte
and every following byte up to but not including the next newline (or
through end of stream), and consumes nothing else; in particular input
`EF BB BF 23 41 0A 42` leaves remainder `0A 42`, input `23 41` leaves an
empty remainder, and input `41` leaves `41`. -/
theorem c9_skip_prefix_semantics :
    (∀ input : List Nat, strip_prelude input = strip_prelude_spec input) ∧
    strip_prelude [0xef, 0xbb, 0xbf, 0x23, 0x41, 0x0a, 0x42] = [0x0a, 0x42] ∧
    strip_prelude [0x23, 0x41] = [] ∧
    strip_prelude [0x41] = [0x41] := by
  refine ⟨strip_prelude_eq, ?_, ?_, ?_⟩ <;> rw [strip_prelude_eq] <;> rfl

/-- C6: for every store and depth `d`, closing upvalues at `d` removes
from the thread's open-upvalue map exactly the entries with key at least
`d` (entries with key below `d` are unchanged), and every removed cell
that was in state `Open(t, i)` ends in state `Closed(v)` where `v` is the
value held by `t`'s stack slot `i` at the moment of closing. -/
theorem c6_close_upvalues_semantics
    (stackOf : Nat → List Value) (selfT : Nat) (openUps : List (Nat × Nat))
    (cells : Nat → Cells.UpValueState) (d : Nat)
    (h : ∀ kv ∈ openUps.filter (fun kv => decide (d ≤ kv.1)),
      Cells.entry_ok stackOf cells kv = true) :
    ∃ cells',
      Cells.close_upvalues stackOf selfT openUps cells d =
        some (openUps.filter (fun kv => decide (kv.1 < d)), cells') ∧
      (∀ k cid t i, (k, cid) ∈ openUps → d ≤ k → cells cid = .openUv t i →
        ∃ v, (stackOf t).get? i = some v ∧ cells' cid = .closed v) ∧
      (∀ cid, (∀ k, (k, cid) ∈ openUps → k < d) → cells' cid = cells cid) := by
  obtain ⟨cells', h1, h2, h3, _⟩ :=
    cells_close_upvalues_spec stackOf selfT openUps cells d h
  exact ⟨cells', h1, h2, h3⟩

/-- Witness for C6 at a concrete two-thread store: thread 0 closes at
depth 1, removing exactly the entry with key 1 and closing its cell with
the aliased slot value of thread 1. -/
theorem c6_close_upvalues_semantics_witness :
    (∀ kv ∈ ([(0, 2), (1, 0)] : List (Nat × Nat)).filter
        (fun kv => decide (1 ≤ kv.1)),
      Cells.entry_ok (fun t => if t = 1 then [Value.integer 7] else [])
        (fun c => if c = 0 then .openUv 1 0 else .closed .nil) kv = true) ∧
    (∃ cells',
      Cells.close_upvalues (fun t => if t = 1 then [Value.integer 7] else []) 0
          [(0, 2), (1, 0)]
          (fun c => if c = 0 then .openUv 1 0 else .closed .nil) 1 =
        some (([(0, 2), (1, 0)] : List (Nat × Nat)).filter
          (fun kv => decide (kv.1 < 1)), cells') ∧
      (∀ k cid t i, (k, cid) ∈ ([(0, 2), (1, 0)] : List (Nat × Nat)) → 1 ≤ k →
        (fun c => if c = 0 then Cells.UpValueState.openUv 1 0
          else Cells.UpValueState.closed .nil) cid = .openUv t i →
        ∃ v, ((fun t => if t = 1 then [Value.integer 7] else []) t).get? i = some v ∧
          cells' cid = .closed v) ∧
      (∀ cid, (∀ k, (k, cid) ∈ ([(0, 2), (1, 0)] : List (Nat × Nat)) → k < 1) →
        cells' cid = (fun c => if c = 0 then Cells.UpValueState.openUv 1 0
          else Cells.UpValueState.closed .nil) cid)) :=
  ⟨by decide,
   c6_close_upvalues_semantics (fun t => if t = 1 then [Value.integer 7] else []) 0
     [(0, 2), (1, 0)]
     (fun c => if c = 0 then .openUv 1 0 else .closed .nil) 1 (by decide)⟩

/-- C4: a write of `x` through the SetUpValue cell write followed by a
read through `get_upvalue` observes `x`, from any reading thread, both
while the cell is Open (routed through the owning thread's stack slot)
and when it is Closed (stored inline); and when the cell was Open, a
subsequent `close_upvalues` sweep on the owning thread turns it into
`Closed x`, so the open-to-closed transition is transparent to readers. -/
theorem c4_upvalue_write_read (stackOf : Nat → List Value)
    (cells : Nat → Cells.UpValueState) (selfT readerT cid : Nat) (val : Value)
    (hok : Cells.entry_ok stackOf cells (0, cid) = true) :
    ∃ stackOf1 cells1,
      Cells.set_upvalue stackOf cells selfT cid val = some (stackOf1, cells1) ∧
      Cells.get_upvalue stackOf1 cells1 readerT cid = some val ∧
      (∀ t i openUps d, cells cid = .openUv t i → (i, cid) ∈ openUps → d ≤ i →
        (∀ kv ∈ openUps.filter (fun kv => decide (d ≤ kv.1)),
          Cells.entry_ok stackOf1 cells1 kv = true) →
        ∃ cells2,
          Cells.close_upvalues stackOf1 t openUps cells1 d =
            some (openUps.filter (fun kv => decide (kv.1 < d)), cells2) ∧
          cells2 cid = .closed val ∧
          Cells.get_upvalue stackOf1 cells2 readerT cid = some val) := by
  unfold Cells.entry_ok at hok
  cases hcell : cells cid with
  | closed w =>
    refine ⟨stackOf, fun c => if c = cid then .closed val else cells c, ?_, ?_, ?_⟩
    · unfold Cells.set_upvalue
      simp only [hcell]
    · unfold Cells.get_upvalue
      simp
    · intro t i openUps d hopen _ _ _
      cases hopen
  | openUv t0 i0 =>
    rw [hcell] at hok
    have hi0 : i0 < (stackOf t0).length := of_decide_eq_true hok
    have hkey : ∀ stackOf1 : Nat → List Value,
        stackOf1 t0 = (stackOf t0).set i0 val →
        (∀ t2, t2 ≠ t0 → stackOf1 t2 = stackOf t2) →
        Cells.get_upvalue stackOf1 cells readerT cid = some val ∧
        (∀ t i openUps d,
          Cells.UpValueState.openUv t0 i0 = Cells.UpValueState.openUv t i →
          (i, cid) ∈ openUps → d ≤ i →
          (∀ kv ∈ openUps.filter (fun kv => decide (d ≤ kv.1)),
            Cells.entry_ok stackOf1 cells kv = true) →
          ∃ cells2,
            Cells.close_upvalues stackOf1 t openUps cells d =
              some (openUps.filter (fun kv => decide (kv.1 < d)), cells2) ∧
            cells2 cid = .closed val ∧
            Cells.get_upvalue stackOf1 cells2 readerT cid = some val) := by
      intro stackOf1 hat hothers
      have hread : (stackOf1 t0).get? i0 = some val := by
        rw [hat]
        exact List.get?_set_eq_of_lt _ hi0
      constructor
      · unfold Cells.get_upvalue
        simp only [hcell]
        rw [cells_slot_read]
        exact hread
      · intro t i openUps d hopen hmem hd hoks
        injection hopen with ht hi
        obtain ⟨cells2, hclose, hclosing, _, _⟩ :=
          cells_close_upvalues_spec stackOf1 t openUps cells d hoks
        obtain ⟨v, hv, hc2⟩ := hclosing i cid t0 i0 hmem (hi ▸ hd) hcell
        have hveq : v = val := by
          rw [hread] at hv
          injection hv with hv
          exact hv.symm
        rw [hveq] at hc2
        refine ⟨cells2, hclose, hc2, ?_⟩
        unfold Cells.get_upvalue
        simp only [hc2]
    by_cases hts : t0 = selfT
    · refine ⟨fun t2 => if t2 = selfT then (stackOf selfT).set i0 val else stackOf t2,
        cells, ?_, ?_⟩
      · unfold Cells.set_upvalue
        simp only [hcell, if_pos hts]
        rw [if_pos (hts ▸ hi0)]
      · refine hkey _ ?_ ?_
        · rw [hts, if_pos rfl]
        · intro t2 ht2
          rw [if_neg (hts ▸ ht2)]
    · refine ⟨fun t2 => if t2 = t0 then (stackOf t0).set i0 val else stackOf t2,
        cells, ?_, ?_⟩
      · unfold Cells.set_upvalue
        simp only [hcell, if_neg hts]
        rw [if_pos hi0]
      · refine hkey _ ?_ ?_
        · rw [if_pos rfl]
        · intro t2 ht2
          rw [if_neg ht2]

/-- Witness for C4 at a concrete store: thread 0 writes 42 through an open
cell aliasing its own slot 1; thread 3 reads it back, then the cell is
closed at depth 0 and thread 3 still reads 42. -/
theorem c4_upvalue_write_read_witness :
    (Cells.entry_ok (fun t => if t = 0 then [Value.nil, Value.nil] else [])
      (fun c => if c = 0 then .openUv 0 1 else .closed .nil) (0, 0) = true) ∧
    (∃ stackOf1 cells1,
      Cells.set_upvalue (fun t => if t = 0 then [Value.nil, Value.nil] else [])
          (fun c => if c = 0 then .openUv 0 1 else .closed .nil) 0 0
          (Value.integer 42) =
        some (stackOf1, cells1) ∧
      Cells.get_upvalue stackOf1 cells1 3 0 = some (Value.integer 42) ∧
      (∀ t i openUps d,
        (fun c => if c = 0 then Cells.UpValueState.openUv 0 1
          else Cells.UpValueState.closed .nil) 0 = .openUv t i →
        (i, 0) ∈ openUps → d ≤ i →
        (∀ kv ∈ openUps.filter (fun kv => decide (d ≤ kv.1)),
          Cells.entry_ok stackOf1 cells1 kv = true) →
        ∃ cells2,
          Cells.close_upvalues stackOf1 t openUps cells1 d =
            some (openUps.filter (fun kv => decide (kv.1 < d)), cells2) ∧
          cells2 0 = .closed (Value.integer 42) ∧
          Cells.get_upvalue stackOf1 cells2 3 0 = some (Value.integer 42))) :=
  ⟨by decide,
   c4_upvalue_write_read (fun t => if t = 0 then [Value.nil, Value.nil] else [])
     (fun c => if c = 0 then .openUv 0 1 else .closed .nil) 0 3 0
     (Value.integer 42) (by decide)⟩

/-! ## Dispatcher lemmas -/

theorem set_pc_eq {s : ThreadState} {fr : Frame} {rest : List Frame}
    (base pc : Nat) (h : s.frames = fr :: rest) :
    set_pc s base pc =
      { s with frames := { fr with frame_type := .lua base pc } :: rest } := by
  unfold set_pc
  rw [h]

theorem exec1_eq {env : Env} {s : ThreadState} {fr : Frame} {rest : List Frame}
    {base pc cid : Nat} {proto : FunctionProto} {op : OpCode}
    (h1 : s.frames = fr :: rest) (h2 : fr.frame_type = .lua base pc)
    (h3 : s.stack.get? fr.bottom = some (.closure cid))
    (h4 : env.protos.get? cid = some proto)
    (h5 : proto.opcodes.get? pc = some op) :
    exec1 env s =
      exec_op env proto op
        { s with frames := { fr with frame_type := .lua base (pc + 1) } :: rest }
        fr.bottom base (pc + 1) fr.frame_return := by
  unfold exec1
  simp only [h1, h2, h3, h4, h5, set_pc_eq base (pc + 1) h1]

/-- C7 fails as stated: at `R = [2, 1, -1, 99]` (control 2, limit 1, step
-1) the updated control value equals the limit; the code continues the
loop (pc is offset by the jump and `R[base]` is copied to `R[base+3]`)
while the claim's strict comparison `R[base] > R[base+1]` says the loop is
past its end (pc advancing normally and `R[base+3]` unchanged). -/
theorem c7_numeric_for_loop_counterexample :
    exec1 env_forloop s_forloop = .fellThrough s_forloop_after ∧
    pc_of s_forloop_after = some 0 ∧
    s_forloop_after.stack.get? 4 = some (.integer 1) ∧
    ¬(pc_of s_forloop_after = some 1 ∧
      s_forloop_after.stack.get? 4 = some (.integer 99)) := by
  decide

/-- C7 (amended): `NumericForLoop{base, jump}` first updates `R[base]` to
`R[base] + R[base+2]`; when `R[base+2] < 0` the loop continues while
`R[base] ≥ R[base+1]` and otherwise while `R[base] ≤ R[base+1]` (the
non-strict comparisons: past-end holds exactly when the strict opposite
relation holds); on continue, pc is offset by `jump` and `R[base]` is
copied to `R[base+3]`; when past the end, pc advances normally and
`R[base+3]` is unchanged. Integer operands (the spec-modelled `Value`
arithmetic). -/
theorem c7_numeric_for_loop (env : Env) (s : ThreadState) (fr : Frame)
    (rest : List Frame) (base pc cid : Nat) (proto : FunctionProto)
    (bReg : Nat) (jmp : Int) (a l st : Int) (pc1 : Nat)
    (h1 : s.frames = fr :: rest) (h2 : fr.frame_type = .lua base pc)
    (h3 : s.stack.get? fr.bottom = some (.closure cid))
    (h4 : env.protos.get? cid = some proto)
    (h5 : proto.opcodes.get? pc = some (.numericForLoop bReg jmp))
    (hr0 : s.stack.get? (base + bReg) = some (.integer a))
    (hr1 : s.stack.get? (base + bReg + 1) = some (.integer l))
    (hr2 : s.stack.get? (base + bReg + 2) = some (.integer st))
    (hr3 : base + bReg + 3 < s.stack.length)
    (hoff : add_offset (pc + 1) jmp = some pc1) :
    ((st < 0 ∧ l ≤ a + st) ∨ (0 ≤ st ∧ a + st ≤ l) →
      ∃ s1, exec1 env s = .fellThrough s1 ∧ pc_of s1 = some pc1 ∧
        s1.stack.get? (base + bReg) = some (.integer (a + st)) ∧
        s1.stack.get? (base + bReg + 3) = some (.integer (a + st))) ∧
    ((st < 0 ∧ a + st < l) ∨ (0 ≤ st ∧ l < a + st) →
      ∃ s1, exec1 env s = .fellThrough s1 ∧ pc_of s1 = some (pc + 1) ∧
        s1.stack.get? (base + bReg) = some (.integer (a + st)) ∧
        s1.stack.get? (base + bReg + 3) = s.stack.get? (base + bReg + 3)) := by
  rw [exec1_eq h1 h2 h3 h4 h5]
  obtain ⟨hblt, -⟩ := List.get?_eq_some.mp hr0
  obtain ⟨st1, hset1⟩ := stack_set_exists (Value.integer (a + st)) hblt
  obtain ⟨hlen1, hget1, hne1⟩ := stack_set_spec hset1
  have hlim : st1.get? (base + bReg + 1) = some (.integer l) := by
    rw [hne1 _ (by omega)]
    exact hr1
  obtain ⟨st2, hset2⟩ :=
    @stack_set_exists st1 (base + bReg + 3) (Value.integer (a + st)) (by omega)
  obtain ⟨hlen2, hget2, hne2⟩ := stack_set_spec hset2
  unfold exec_op
  simp only [hr0, hr2, Value.add, hset1, Value.less_than, hlim, hoff, hset2]
  constructor
  · rintro (⟨hneg, hcont⟩ | ⟨hpos, hcont⟩)
    · have hpe : (if decide (st < 0) = true then some (decide (a + st < l))
          else some (decide (l < a + st))) = some false := by
        rw [if_pos (decide_eq_true hneg),
          decide_eq_false (by omega : ¬(a + st < l))]
      simp only [hpe]
      rw [if_neg Bool.false_ne_true]
      refine ⟨_, rfl, ?_, ?_, ?_⟩
      · unfold pc_of set_pc
        rfl
      · show st2.get? (base + bReg) = _
        rw [hne2 _ (by omega)]
        exact hget1
      · exact hget2
    · have hc : decide (st < 0) = false := decide_eq_false (by omega)
      have hpe : (if decide (st < 0) = true then some (decide (a + st < l))
          else some (decide (l < a + st))) = some false := by
        rw [if_neg (by rw [hc]; exact Bool.false_ne_true),
          decide_eq_false (by omega : ¬(l < a + st))]
      simp only [hpe]
      rw [if_neg Bool.false_ne_true]
      refine ⟨_, rfl, ?_, ?_, ?_⟩
      · unfold pc_of set_pc
        rfl
      · show st2.get? (base + bReg) = _
        rw [hne2 _ (by omega)]
        exact hget1
      · exact hget2
  · rintro (⟨hneg, hstop⟩ | ⟨hpos, hstop⟩)
    · have hpe : (if decide (st < 0) = true then some (decide (a + st < l))
          else some (decide (l < a + st))) = some true := by
        rw [if_pos (decide_eq_true hneg), decide_eq_true hstop]
      simp only [hpe]
      rw [if_pos trivial]
      refine ⟨_, rfl, ?_, ?_, ?_⟩
      · unfold pc_of
        rfl
      · show st1.get? (base + bReg) = _
        exact hget1
      · show st1.get? (base + bReg + 3) = _
        rw [hne1 _ (by omega)]
    · have hc : decide (st < 0) = false := decide_eq_false (by omega)
      have hpe : (if decide (st < 0) = true then some (decide (a + st < l))
          else some (decide (l < a + st))) = some true := by
        rw [if_neg (by rw [hc]; exact Bool.false_ne_true), decide_eq_true hstop]
      simp only [hpe]
      rw [if_pos trivial]
      refine ⟨_, rfl, ?_, ?_, ?_⟩
      · unfold pc_of
        rfl
      · show st1.get? (base + bReg) = _
        exact hget1
      · show st1.get? (base + bReg + 3) = _
        rw [hne1 _ (by omega)]

/-- Witness for C7 at a concrete input: control 2, limit 1, step -1; the
updated control equals the limit and the loop continues. -/
theorem c7_numeric_for_loop_witness :
    ((-1 : Int) < 0 ∧ (1 : Int) ≤ 2 + -1) ∧
    (∃ s1, exec1 env_forloop s_forloop = .fellThrough s1 ∧ pc_of s1 = some 0 ∧
      s1.stack.get? (1 + 0) = some (.integer (2 + -1)) ∧
      s1.stack.get? (1 + 0 + 3) = some (.integer (2 + -1))) :=
  ⟨⟨by decide, by decide⟩,
   (c7_numeric_for_loop env_forloop s_forloop ⟨0, 5, .lua 1 0, .callBoundary⟩ []
      1 0 0 ⟨[.numericForLoop 0 (-1)], [], [], 0, 4⟩ 0 (-1) 2 1 (-1) 0
      rfl rfl rfl rfl rfl rfl rfl rfl (by decide) rfl).1
     (Or.inl ⟨by decide, by decide⟩)⟩

theorem unwind_frames_spec :
    ∀ (frames : List Frame) (bf : Frame) (rest : List Frame),
      unwind_frames frames = some (bf, rest) →
      ∃ pre, frames = pre ++ bf :: rest ∧
        (∀ f ∈ pre, f.frame_return ≠ .callBoundary) ∧
        bf.frame_return = .callBoundary := by
  intro frames
  induction frames with
  | nil => intro bf rest h; cases h
  | cons f fs ih =>
    intro bf rest h
    unfold unwind_frames at h
    split at h
    case isTrue hcb =>
      injection h with h
      injection h with hbf hrest
      subst hbf
      subst hrest
      exact ⟨[], rfl, fun g hg => absurd hg (by simp), hcb⟩
    case isFalse hcb =>
      obtain ⟨pre, happ, hpre, hbf⟩ := ih bf rest h
      refine ⟨f :: pre, by rw [happ]; rfl, ?_, hbf⟩
      intro g hg
      rcases List.mem_cons.mp hg with hg | hg
      · rw [hg]; exact hcb
      · exact hpre g hg

/-- C5 fails as stated: unwinding a thread whose only frame is the
CallBoundary frame pops it and leaves the stack untouched (length 2 here),
while the claim says the stack is cleared (length 0) when no frame
remains. -/
theorem c5_unwind_counterexample :
    unwind s_unwind = some ⟨[.nil, .nil], [], [], []⟩ ∧
    ¬((unwind s_unwind).map (fun s1 => s1.stack.length) = some 0) := by
  decide

/-- C5 (amended): on an error, unwind pops frames up to and including the
nearest frame with a CallBoundary frame return, closes upvalues at the
boundary frame's bottom (removing every open-upvalue entry at or above it,
which covers every popped frame's bottom since frames are nested), and
afterwards resizes the stack to the new top frame's top when a frame
remains; when no frame remains the stack is left unchanged. -/
theorem c5_unwind (s : ThreadState) (bf : Frame) (rest : List Frame)
    (hb : unwind_frames s.frames = some (bf, rest))
    (hok : sweep_ok s bf.bottom) :
    ∃ s1, unwind s = some s1 ∧
      s1.frames = rest ∧
      (∃ pre, s.frames = pre ++ bf :: rest ∧
        (∀ f ∈ pre, f.frame_return ≠ .callBoundary) ∧
        bf.frame_return = .callBoundary) ∧
      s1.open_upvalues =
        s.open_upvalues.filter (fun kv => decide (kv.1 < bf.bottom)) ∧
      cells_closed_at s s1.cells bf.bottom ∧
      (∀ f, rest.head? = some f → s1.stack = resize s.stack f.top) ∧
      (rest = [] → s1.stack = s.stack) := by
  have hok2 : sweep_ok { s with frames := rest } bf.bottom := hok
  obtain ⟨s2, hclose, hstk, hfrm, hups, -, hcells, -⟩ := close_upvalues_spec hok2
  have hstk1 : s2.stack = s.stack := hstk
  have hfrm1 : s2.frames = rest := hfrm
  have hups1 : s2.open_upvalues =
      s.open_upvalues.filter (fun kv => decide (kv.1 < bf.bottom)) := hups
  have hcells1 : cells_closed_at s s2.cells bf.bottom := hcells
  rcases rest with _ | ⟨f2, fs⟩
  · refine ⟨s2, ?_, hfrm1, unwind_frames_spec s.frames bf [] hb, hups1, hcells1,
      ?_, fun _ => hstk1⟩
    · unfold unwind
      simp only [hb, hclose, List.head?]
    · intro f hf
      simp at hf
  · refine ⟨{ s2 with stack := resize s2.stack f2.top }, ?_,
      show ({ s2 with stack := resize s2.stack f2.top }).frames = f2 :: fs from hfrm1,
      unwind_frames_spec s.frames bf (f2 :: fs) hb, hups1, hcells1, ?_, ?_⟩
    · unfold unwind
      simp only [hb, hclose, List.head?]
    · intro f hf
      rw [List.head?_cons] at hf
      injection hf with hf
      subst hf
      show resize s2.stack f2.top = resize s.stack f2.top
      rw [hstk1]
    · intro h
      cases h

/-- Witness for C5 at a concrete state: the top Upper frame and the
boundary frame are popped, the upvalue entry at key 4 is closed with the
slot value 8, and with no frame remaining the stack is left as it was. -/
theorem c5_unwind_witness :
    (unwind_frames s_ret.frames =
      some (⟨0, 4, .lua 1 5, .callBoundary⟩, []) ∧ sweep_ok s_ret 0) ∧
    (∃ s1, unwind s_ret = some s1 ∧
      s1.frames = [] ∧
      (∃ pre, s_ret.frames = pre ++ ⟨0, 4, .lua 1 5, .callBoundary⟩ :: [] ∧
        (∀ f ∈ pre, f.frame_return ≠ .callBoundary) ∧
        (FrameReturn.callBoundary : FrameReturn) = .callBoundary) ∧
      s1.open_upvalues =
        s_ret.open_upvalues.filter (fun kv => decide (kv.1 < 0)) ∧
      cells_closed_at s_ret s1.cells 0 ∧
      (∀ f, ([] : List Frame).head? = some f → s1.stack = resize s_ret.stack f.top) ∧
      (([] : List Frame) = [] → s1.stack = s_ret.stack)) :=
  ⟨⟨by decide, by decide⟩,
   c5_unwind s_ret ⟨0, 4, .lua 1 5, .callBoundary⟩ [] (by decide) (by decide)⟩

theorem get?_take_lt {α : Type} (l : List α) {m n : Nat} (h : m < n) :
    (l.take n).get? m = l.get? m := by
  rw [List.get?_eq_getElem?, List.get?_eq_getElem?]
  exact List.getElem?_take_of_lt h

theorem resize_get_lt {st : List Value} {n j : Nat} (hj : j < n)
    (hl : j < st.length) : (resize st n).get? j = st.get? j := by
  unfold resize
  split
  · exact get?_take_lt _ hj
  · rw [List.get?_append hl]

theorem closure_call_frames (env : Env) (s : ThreadState) (fi : Nat)
    (args : VarCount) (frret : FrameReturn) (s' : ThreadState)
    (h : closure_call env s fi args frret = some s') :
    s'.frames.length = s.frames.length + 1 := by
  unfold closure_call at h
  repeat' split at h
  any_goals cases h
  all_goals simp only [] at h
  all_goals repeat' split at h
  all_goals cases h
  all_goals simp

theorem callback_call_cases (env : Env) (s : ThreadState) (fi : Nat)
    (args : VarCount) (frret : FrameReturn) (cb : Nat)
    (hcb : s.stack.get? fi = some (.callback cb))
    (s' : ThreadState) (r? : Option StepOut)
    (h : callback_call env s fi args frret = some (s', r?)) :
    ((∃ res, env.callbackCall cb
        ((s.stack.drop (fi + 1)).take (match args.to_constant with
          | some c => c
          | none => s.stack.length - fi - 1)) = .ret res) →
      s'.frames = s.frames) ∧
    ((∃ e, env.callbackCall cb
        ((s.stack.drop (fi + 1)).take (match args.to_constant with
          | some c => c
          | none => s.stack.length - fi - 1)) = .errA e) →
      s'.frames = s.frames) ∧
    ((∃ res, env.callbackCall cb
        ((s.stack.drop (fi + 1)).take (match args.to_constant with
          | some c => c
          | none => s.stack.length - fi - 1)) = .yieldA res) →
      s'.frames.length = s.frames.length + 1) ∧
    (∀ k, env.callbackCall cb
        ((s.stack.drop (fi + 1)).take (match args.to_constant with
          | some c => c
          | none => s.stack.length - fi - 1)) = .continueA k →
      (frret = .callBoundary → s'.frames = s.frames) ∧
      (∀ rv, frret = .upper rv → s'.frames.length = s.frames.length + 1)) := by
  unfold callback_call at h
  rw [hcb] at h
  simp only [] at h
  split at h
  case isFalse => cases h
  case isTrue hlen =>
    generalize env.callbackCall cb
        ((s.stack.drop (fi + 1)).take (match args.to_constant with
          | some c => c
          | none => s.stack.length - fi - 1)) = act at h ⊢
    cases act with
    | errA e =>
      cases h
      refine ⟨?_, fun _ => rfl, ?_, ?_⟩
      · rintro ⟨res, hres⟩
        cases hres
      · rintro ⟨res, hres⟩
        cases hres
      · intro k hk
        cases hk
    | ret res =>
      have hfr : s'.frames = s.frames := by
        simp only [] at h
        repeat' split at h
        all_goals cases h
        all_goals rfl
      refine ⟨fun _ => hfr, ?_, ?_, ?_⟩
      · rintro ⟨e, he⟩
        cases he
      · rintro ⟨res2, hres⟩
        cases hres
      · intro k hk
        cases hk
    | yieldA res =>
      cases h
      refine ⟨?_, ?_, fun _ => by simp, ?_⟩
      · rintro ⟨res2, hres⟩
        cases hres
      · rintro ⟨e, he⟩
        cases he
      · intro k hk
        cases hk
    | continueA k =>
      refine ⟨?_, ?_, ?_, ?_⟩
      · rintro ⟨res, hres⟩
        cases hres
      · rintro ⟨e, he⟩
        cases he
      · rintro ⟨res, hres⟩
        cases hres
      · intro k2 hk
        injection hk with hk
        subst hk
        cases hfr : frret with
        | callBoundary =>
          rw [hfr] at h
          cases h
          constructor
          · intro
            rfl
          · intro rv hrv
            cases hrv
        | upper rv0 =>
          rw [hfr] at h
          cases h
          constructor
          · intro hc
            cases hc
          · intro rv hrv
            simp

/-- C3 fails as stated: a TailCall from a single CallBoundary frame whose
callee is a callback that returns immediately pops the frame and pushes
nothing, finishing the slice with zero frames where one existed before. -/
theorem c3_tail_call_counterexample :
    s_tail.frames.length = 1 ∧
    exec1 env_tail s_tail =
      .returned ⟨[.callback 0], [], [], []⟩ (.finish []) ∧
    ¬((match exec1 env_tail s_tail with
        | .fellThrough s1 => s1.frames.length
        | .restarted s1 => s1.frames.length
        | .returned s1 _ => s1.frames.length) = s_tail.frames.length) := by
  decide

/-- C3 (amended): a TailCall closes upvalues at the frame's bottom, copies
the callee and its arguments down to the frame's bottom, pops exactly the
current frame, and performs the call with the popped frame's frame return;
the call pushes exactly one frame when the callee is a closure (so the
frame count is preserved), and when the callee is a callback a frame is
pushed only when the callback yields or continues into an Upper frame
return — when it returns values immediately, errors, or continues at a
CallBoundary, no frame replaces the popped one and the count is one less
than before. -/
theorem c3_tail_call (env : Env) (s : ThreadState) (fr : Frame)
    (rest : List Frame) (base pc cid : Nat) (proto : FunctionProto)
    (func : Nat) (args : VarCount) (arg_len : Nat)
    (h1 : s.frames = fr :: rest) (h2 : fr.frame_type = .lua base pc)
    (h3 : s.stack.get? fr.bottom = some (.closure cid))
    (h4 : env.protos.get? cid = some proto)
    (h5 : proto.opcodes.get? pc = some (.tailCall func args))
    (hok : sweep_ok s fr.bottom)
    (hbf : fr.bottom ≤ base + func)
    (hargc : args.to_constant = some arg_len ∨
      (args.to_constant = none ∧ arg_len = s.stack.length - (base + func) - 1))
    (hrange : base + func + 1 + arg_len ≤ s.stack.length) :
    (∃ s2, s2.frames = rest ∧
      s2.stack.get? fr.bottom = s.stack.get? (base + func) ∧
      (∀ s3, function_call env s2 fr.bottom args fr.frame_return = some (s3, none) →
        exec1 env s = .restarted s3) ∧
      (∀ s3 r, function_call env s2 fr.bottom args fr.frame_return =
          some (s3, some r) → exec1 env s = .returned s3 r)) ∧
    (∀ (sx sy : ThreadState) (fi : Nat) (args2 : VarCount) (frret : FrameReturn)
        (r? : Option StepOut) (ccid : Nat),
      sx.stack.get? fi = some (.closure ccid) →
      function_call env sx fi args2 frret = some (sy, r?) →
      sy.frames.length = sx.frames.length + 1) ∧
    (∀ (sx sy : ThreadState) (fi : Nat) (args2 : VarCount) (frret : FrameReturn)
        (r? : Option StepOut) (cb : Nat),
      sx.stack.get? fi = some (.callback cb) →
      function_call env sx fi args2 frret = some (sy, r?) →
      ((∃ res, env.callbackCall cb
          ((sx.stack.drop (fi + 1)).take (match args2.to_constant with
            | some c => c
            | none => sx.stack.length - fi - 1)) = .ret res) →
        sy.frames = sx.frames) ∧
      ((∃ e, env.callbackCall cb
          ((sx.stack.drop (fi + 1)).take (match args2.to_constant with
            | some c => c
            | none => sx.stack.length - fi - 1)) = .errA e) →
        sy.frames = sx.frames) ∧
      ((∃ res, env.callbackCall cb
          ((sx.stack.drop (fi + 1)).take (match args2.to_constant with
            | some c => c
            | none => sx.stack.length - fi - 1)) = .yieldA res) →
        sy.frames.length = sx.frames.length + 1) ∧
      (∀ k, env.callbackCall cb
          ((sx.stack.drop (fi + 1)).take (match args2.to_constant with
            | some c => c
            | none => sx.stack.length - fi - 1)) = .continueA k →
        (frret = .callBoundary → sy.frames = sx.frames) ∧
        (∀ rv, frret = .upper rv → sy.frames.length = sx.frames.length + 1))) := by
  refine ⟨?_, ?_, ?_⟩
  · have hokS : sweep_ok
        { s with frames := { fr with frame_type := .lua base (pc + 1) } :: rest }
        fr.bottom := hok
    obtain ⟨s1, hclose, hstk1, hfrm1, -, -, -, -⟩ := close_upvalues_spec hokS
    have hstk1' : s1.stack = s.stack := hstk1
    have harg : (match args.to_constant with
        | some a => some a
        | none =>
          if base + func + 1 ≤ s1.stack.length then
            some (s1.stack.length - (base + func) - 1)
          else none) = some arg_len := by
      rcases hargc with h | ⟨hv, hlen⟩
      · rw [h]
      · rw [hv, hstk1', if_pos (by omega), hlen]
    have hfidx : base + func < s.stack.length := by omega
    obtain ⟨fv, hfv2⟩ : ∃ fv, s1.stack.get? (base + func) = some fv := by
      rw [hstk1']
      exact ⟨_, List.get?_eq_get hfidx⟩
    have hblen : fr.bottom < s1.stack.length := by
      rw [hstk1']
      omega
    obtain ⟨stA, hsetA⟩ := stack_set_exists fv hblen
    obtain ⟨hlenA, hgetA, hneA⟩ := stack_set_spec hsetA
    obtain ⟨stB, hcopy, hlenB, hcopyget, hout⟩ :=
      copy_slots_spec arg_len stA (fr.bottom + 1) (base + func + 1) (by omega)
        (by rw [hlenA, hstk1']; omega)
    refine ⟨⟨truncate stB (fr.bottom + 1 + arg_len), s1.frames.tail,
      s1.open_upvalues, s1.cells⟩, ?_, ?_, ?_, ?_⟩
    · show s1.frames.tail = rest
      rw [hfrm1]
      rfl
    · show (truncate stB (fr.bottom + 1 + arg_len)).get? fr.bottom = _
      unfold truncate
      rw [get?_take_lt _ (show fr.bottom < fr.bottom + 1 + arg_len by omega)]
      rw [hout fr.bottom (Or.inl (by omega)), hgetA]
      have hsfv : s.stack.get? (base + func) = some fv := by
        rw [← hstk1']
        exact hfv2
      rw [hsfv]
    · intro s3 hfc
      rw [exec1_eq h1 h2 h3 h4 h5]
      unfold exec_op
      simp only [hclose, harg, hfv2, hsetA, hcopy, hfc]
    · intro s3 r hfc
      rw [exec1_eq h1 h2 h3 h4 h5]
      unfold exec_op
      simp only [hclose, harg, hfv2, hsetA, hcopy, hfc]
  · intro sx sy fi args2 frret r? ccid hcl hfc
    unfold function_call at hfc
    rw [hcl] at hfc
    cases hcc : closure_call env sx fi args2 frret with
    | none =>
      rw [hcc] at hfc
      cases hfc
    | some s2 =>
      rw [hcc] at hfc
      injection hfc with hfc
      cases hfc
      exact closure_call_frames env sx fi args2 frret _ hcc
  · intro sx sy fi args2 frret r? cb hcb2 hfc
    unfold function_call at hfc
    rw [hcb2] at hfc
    exact callback_call_cases env sx fi args2 frret cb hcb2 sy r? hfc

/-- C2: a Return opcode executed in a frame with bottom `b` closes the
upvalues at index at least `b` and pops the frame; with a CallBoundary
frame return the slice finishes with the collected `count` values and the
stack is reset to the next-lower frame's top (or cleared when no frame
remains); with an Upper(returns) frame return, `min(returning, count)`
values are written down to `b` and positions `count..returning` are filled
with Nil (writes that survive the final resize are observable), the final
stack length equals the next-lower frame's top when `returns` is a fixed
`k`, and the stack is truncated to `b + returning` when `returns` is
variable. -/
theorem c2_return_semantics (env : Env) (s : ThreadState) (fr : Frame)
    (rest : List Frame) (base pc cid : Nat) (proto : FunctionProto)
    (start : Nat) (count : VarCount) (cnt : Nat)
    (h1 : s.frames = fr :: rest) (h2 : fr.frame_type = .lua base pc)
    (h3 : s.stack.get? fr.bottom = some (.closure cid))
    (h4 : env.protos.get? cid = some proto)
    (h5 : proto.opcodes.get? pc = some (.ret start count))
    (hok : sweep_ok s fr.bottom)
    (hbs : fr.bottom ≤ base + start)
    (hcnt : count.to_constant = some cnt ∨
      (count.to_constant = none ∧ base + start ≤ s.stack.length ∧
        cnt = s.stack.length - (base + start)))
    (hslice : base + start + cnt ≤ s.stack.length)
    (hupper : ∀ rv, fr.frame_return = .upper rv → rest ≠ [] ∧
      ∀ k, rv = .constant k → fr.bottom + k ≤ s.stack.length) :
    (fr.frame_return = .callBoundary →
      ∃ s1, exec1 env s = .returned s1
          (.finish ((s.stack.drop (base + start)).take cnt)) ∧
        s1.frames = rest ∧
        s1.open_upvalues =
          s.open_upvalues.filter (fun kv => decide (kv.1 < fr.bottom)) ∧
        cells_closed_at s s1.cells fr.bottom ∧
        s1.stack = (match rest.head? with
          | some f => resize s.stack f.top
          | none => [])) ∧
    (∀ rv, fr.frame_return = .upper rv →
      ∃ s1, exec1 env s = .restarted s1 ∧
        s1.frames = rest ∧
        s1.open_upvalues =
          s.open_upvalues.filter (fun kv => decide (kv.1 < fr.bottom)) ∧
        cells_closed_at s s1.cells fr.bottom ∧
        (rv = .variadic →
          s1.stack.length = fr.bottom + cnt ∧
          (∀ i, i < cnt →
            s1.stack.get? (fr.bottom + i) = s.stack.get? (base + start + i))) ∧
        (∀ k, rv = .constant k →
          ∀ f2, rest.head? = some f2 →
            s1.stack.length = f2.top ∧
            (∀ i, i < min k cnt → fr.bottom + i < f2.top →
              s1.stack.get? (fr.bottom + i) = s.stack.get? (base + start + i)) ∧
            (∀ i, cnt ≤ i → i < k → fr.bottom + i < f2.top →
              s1.stack.get? (fr.bottom + i) = some .nil))) := by
  have hokS : sweep_ok
      { s with frames := { fr with frame_type := .lua base (pc + 1) } :: rest }
      fr.bottom := hok
  obtain ⟨s1, hclose, hstk1, hfrm1, hups1, -, hcells1, -⟩ := close_upvalues_spec hokS
  have hstk1' : s1.stack = s.stack := hstk1
  have hups1' : s1.open_upvalues =
      s.open_upvalues.filter (fun kv => decide (kv.1 < fr.bottom)) := hups1
  have hcells1' : cells_closed_at s s1.cells fr.bottom := hcells1
  have htail : s1.frames.tail = rest := by
    rw [hfrm1]
    rfl
  have hcnt' : (match count.to_constant with
      | some c => some c
      | none =>
        if base + start ≤ s1.stack.length then
          some (s1.stack.length - (base + start))
        else none) = some cnt := by
    rcases hcnt with h | ⟨hv, hle, hc⟩
    · rw [h]
    · rw [hv, hstk1', if_pos hle, hc]
  constructor
  · intro hcb
    refine ⟨⟨(match rest.head? with
        | some f => resize s.stack f.top
        | none => []), rest, s1.open_upvalues, s1.cells⟩, ?_, rfl, hups1', hcells1',
        rfl⟩
    rw [exec1_eq h1 h2 h3 h4 h5]
    unfold exec_op
    rw [hcb] at hclose
    simp only [hclose, hcnt', hcb]
    rw [if_pos (show base + start + cnt ≤ s1.stack.length by
      rw [hstk1']
      exact hslice)]
    rw [htail, hstk1']
  · intro rv hup
    obtain ⟨hrest, hkfit⟩ := hupper rv hup
    cases rv with
    | variadic =>
      obtain ⟨stC, hcopy, hlenC, hcopyget, houtC⟩ :=
        copy_slots_spec (min cnt cnt) s1.stack fr.bottom (base + start) hbs
          (by rw [hstk1']; omega)
      obtain ⟨stB, hfill, hlenB, hfillget, houtB⟩ :=
        fill_nil_spec (cnt - cnt) stC (fr.bottom + cnt)
          (by rw [hlenC, hstk1']; omega)
      have hvalB : ∀ i, i < cnt →
          stB.get? (fr.bottom + i) = s.stack.get? (base + start + i) := by
        intro i hi
        rw [houtB _ (Or.inl (by omega)), hcopyget i (by omega), hstk1']
      refine ⟨⟨truncate stB (fr.bottom + cnt), rest, s1.open_upvalues, s1.cells⟩,
        ?_, rfl, hups1', hcells1', ?_, ?_⟩
      · rw [exec1_eq h1 h2 h3 h4 h5]
        unfold exec_op
        rw [hup] at hclose
        simp only [hclose, hcnt', hup]
        simp only [VarCount.to_constant, hcopy, hfill]
        rw [if_pos (show VarCount.is_variable VarCount.variadic = true from rfl),
          htail]
      · intro _
        constructor
        · show (truncate stB (fr.bottom + cnt)).length = fr.bottom + cnt
          unfold truncate
          rw [List.length_take]
          have : fr.bottom + cnt ≤ stB.length := by
            rw [hlenB, hlenC, hstk1']
            omega
          omega
        · intro i hi
          show (truncate stB (fr.bottom + cnt)).get? (fr.bottom + i) = _
          unfold truncate
          rw [get?_take_lt _ (by omega)]
          exact hvalB i hi
      · intro k hk
        cases hk
    | constant k =>
      have hkfit2 : fr.bottom + k ≤ s.stack.length := hkfit k rfl
      obtain ⟨stC, hcopy, hlenC, hcopyget, houtC⟩ :=
        copy_slots_spec (min k cnt) s1.stack fr.bottom (base + start) hbs
          (by rw [hstk1']; omega)
      obtain ⟨stB, hfill, hlenB, hfillget, houtB⟩ :=
        fill_nil_spec (k - cnt) stC (fr.bottom + cnt)
          (by rw [hlenC, hstk1']; omega)
      have hvalB : ∀ i, i < min k cnt →
          stB.get? (fr.bottom + i) = s.stack.get? (base + start + i) := by
        intro i hi
        rw [houtB _ (Or.inl (by omega)), hcopyget i hi, hstk1']
      cases hrc : rest with
      | nil => exact absurd hrc hrest
      | cons f2 fs =>
        refine ⟨⟨resize stB f2.top, f2 :: fs, s1.open_upvalues, s1.cells⟩,
          ?_, rfl, hups1', hcells1', ?_, ?_⟩
        · rw [exec1_eq h1 h2 h3 h4 h5]
          unfold exec_op
          rw [hup] at hclose
          simp only [hclose, hcnt', hup]
          simp only [VarCount.to_constant, hcopy, hfill]
          rw [if_neg (show ¬(VarCount.is_variable (VarCount.constant k) = true) from
            fun hh => Bool.false_ne_true hh)]
          rw [htail, hrc]
          rfl
        · intro hv
          cases hv
        · intro k2 hk2 f2b hf2
          injection hk2 with hk2
          subst hk2
          rw [List.head?_cons] at hf2
          injection hf2 with hf2
          subst hf2
          refine ⟨?_, ?_, ?_⟩
          · show (resize stB f2.top).length = f2.top
            exact resize_length _ _
          · intro i hi hlt
            show (resize stB f2.top).get? (fr.bottom + i) = _
            rw [resize_get_lt hlt (by rw [hlenB, hlenC, hstk1']; omega)]
            exact hvalB i hi
          · intro i hcnti hik hlt
            show (resize stB f2.top).get? (fr.bottom + i) = some Value.nil
            rw [resize_get_lt hlt (by rw [hlenB, hlenC, hstk1']; omega)]
            have hnil := hfillget (i - cnt) (by omega)
            have heq : fr.bottom + cnt + (i - cnt) = fr.bottom + i := by omega
            rw [heq] at hnil
            exact hnil

/-- Witness for C2 at a concrete input: a frame at bottom 2 returns two
values (7 and 8) into an `Upper(constant 1)` frame return above a
CallBoundary frame; the open upvalue at key 4 is closed, one value is
written down to bottom 2, and the stack is resized to the lower frame's
top. -/
theorem c2_return_semantics_witness :
    (s_ret.frames = ⟨2, 6, .lua 3 0, .upper (.constant 1)⟩ ::
        [⟨0, 4, .lua 1 5, .callBoundary⟩] ∧ sweep_ok s_ret 2) ∧
    (∃ s1, exec1 env_ret s_ret = .restarted s1 ∧
      s1.frames = [⟨0, 4, .lua 1 5, .callBoundary⟩] ∧
      s1.open_upvalues = s_ret.open_upvalues.filter (fun kv => decide (kv.1 < 2)) ∧
      cells_closed_at s_ret s1.cells 2 ∧
      ((VarCount.constant 1 : VarCount) = .variadic →
        s1.stack.length = 2 + 2 ∧
        (∀ i, i < 2 → s1.stack.get? (2 + i) = s_ret.stack.get? (3 + 0 + i))) ∧
      (∀ k, (VarCount.constant 1 : VarCount) = .constant k →
        ∀ f2, ([⟨0, 4, .lua 1 5, .callBoundary⟩] : List Frame).head? = some f2 →
          s1.stack.length = f2.top ∧
          (∀ i, i < min k 2 → 2 + i < f2.top →
            s1.stack.get? (2 + i) = s_ret.stack.get? (3 + 0 + i)) ∧
          (∀ i, 2 ≤ i → i < k → 2 + i < f2.top →
            s1.stack.get? (2 + i) = some .nil))) :=
  ⟨⟨rfl, by decide⟩,
   (c2_return_semantics env_ret s_ret ⟨2, 6, .lua 3 0, .upper (.constant 1)⟩
      [⟨0, 4, .lua 1 5, .callBoundary⟩] 3 0 0 ⟨[.ret 0 (.constant 2)], [], [], 0, 3⟩
      0 (.constant 2) 2 rfl rfl rfl rfl rfl (by decide) (by decide) (Or.inl rfl)
      (by decide)
      (by
        intro rv hrv
        injection hrv with hrv
        subst hrv
        exact ⟨by decide, fun k hk => by
          injection hk with hk
          subst hk
          decide⟩)).2 (.constant 1) rfl⟩

/-- Witness for C3 at a concrete input: the tail call in `s_tail` pops the
only frame and delegates to `function_call` on the callback value. -/
theorem c3_tail_call_witness :
    (s_tail.frames = ⟨0, 2, .lua 1 0, .callBoundary⟩ :: [] ∧
      sweep_ok s_tail 0) ∧
    (∃ s2, s2.frames = [] ∧
      s2.stack.get? 0 = s_tail.stack.get? (1 + 0) ∧
      (∀ s3, function_call env_tail s2 0 (.constant 0) .callBoundary =
          some (s3, none) → exec1 env_tail s_tail = .restarted s3) ∧
      (∀ s3 r, function_call env_tail s2 0 (.constant 0) .callBoundary =
          some (s3, some r) → exec1 env_tail s_tail = .returned s3 r)) :=
  ⟨⟨rfl, by decide⟩,
   (c3_tail_call env_tail s_tail ⟨0, 2, .lua 1 0, .callBoundary⟩ [] 1 0 0
     ⟨[.tailCall 0 (.constant 0)], [], [], 0, 2⟩ 0 (.constant 0) 0
     rfl rfl rfl rfl rfl (by decide) (by decide) (Or.inl rfl) (by decide)).1⟩

/-- C1 is the documented intent but the code is off by one: with
granularity 1 the first slice executes two opcodes (pc advances from 0 to
2) before returning "not done". The budget check runs after each opcode
and returns before decrementing, so a slice of granularity `g` executes
`g + 1` opcodes on straight-line code, and the frame-changing arms
(Call/TailCall/Return/VarArgs/GenericForCall) skip the budget check
entirely. -/
theorem c1_granularity_off_by_one :
    sequence_closure env_moves ⟨[], [], [], []⟩ 0 [] 1 = some (s_moves, ⟨1, 1⟩) ∧
    (match thread_step env_moves 32 s_moves 1 with
      | some (s1, .notDone) => pc_of s1
      | _ => none) = some 2 := by
  decide

/-! ## Slice composition and determinism (claim C8) -/

theorem callback_call_res_ne_notDone (env : Env) (s : ThreadState) (fi : Nat)
    (args : VarCount) (frret : FrameReturn) (s' : ThreadState) (r : StepOut)
    (h : callback_call env s fi args frret = some (s', some r)) :
    r ≠ .notDone := by
  unfold callback_call at h
  repeat' split at h
  all_goals try simp only [] at h
  all_goals repeat' split at h
  all_goals cases h
  all_goals simp

theorem function_call_res_ne_notDone (env : Env) (s : ThreadState) (fi : Nat)
    (args : VarCount) (frret : FrameReturn) (s' : ThreadState) (r : StepOut)
    (h : function_call env s fi args frret = some (s', some r)) :
    r ≠ .notDone := by
  unfold function_call at h
  split at h
  case h_1 =>
    cases hcc : closure_call env s fi args frret with
    | none =>
      rw [hcc] at h
      cases h
    | some s2 =>
      rw [hcc] at h
      cases h
  case h_2 => exact callback_call_res_ne_notDone env s fi args frret s' r h
  case h_3 => cases h

set_option maxHeartbeats 2000000 in
theorem exec_op_returned_ne_notDone (env : Env) (proto : FunctionProto)
    (op : OpCode) (s : ThreadState) (bottom base pc : Nat) (frret : FrameReturn)
    (s1 : ThreadState) (r : StepOut)
    (h : exec_op env proto op s bottom base pc frret = .returned s1 r) :
    r ≠ .notDone := by
  cases op
  all_goals unfold exec_op at h
  all_goals repeat' split at h
  all_goals try simp only [] at h
  all_goals repeat' split at h
  all_goals try simp only [] at h
  all_goals repeat' split at h
  all_goals cases h
  all_goals first
    | exact function_call_res_ne_notDone _ _ _ _ _ _ _ (by assumption)
    | exact OpCode.noConfusion (by assumption)
    | simp

theorem exec1_returned_ne_notDone (env : Env) (s s1 : ThreadState) (r : StepOut)
    (h : exec1 env s = .returned s1 r) : r ≠ .notDone := by
  unfold exec1 at h
  repeat' split at h
  all_goals first
    | (cases h; simp)
    | exact exec_op_returned_ne_notDone _ _ _ _ _ _ _ _ _ _ h

theorem step_lua_fuel_mono (env : Env) :
    ∀ (fuel : Nat) (s : ThreadState) (b : Nat) (r : ThreadState × StepOut),
      step_lua env fuel s b = some r → step_lua env (fuel + 1) s b = some r := by
  intro fuel
  induction fuel with
  | zero =>
    intro s b r h
    cases h
  | succ n ih =>
    intro s b r h
    unfold step_lua at h ⊢
    cases he : exec1 env s with
    | returned s1 r1 =>
      rw [he] at h
      exact h
    | restarted s1 =>
      rw [he] at h
      exact ih s1 b r h
    | fellThrough s1 =>
      rw [he] at h
      have h1 : (if b = 0 then some (s1, StepOut.notDone)
          else step_lua env n s1 (b - 1)) = some r := h
      show (if b = 0 then some (s1, StepOut.notDone)
          else step_lua env (n + 1) s1 (b - 1)) = some r
      by_cases hb : b = 0
      · rw [if_pos hb] at h1 ⊢
        exact h1
      · rw [if_neg hb] at h1 ⊢
        exact ih s1 (b - 1) r h1

theorem step_lua_fuel_le (env : Env) {f1 f2 : Nat} {s : ThreadState} {b : Nat}
    {r : ThreadState × StepOut} (hle : f1 ≤ f2)
    (h : step_lua env f1 s b = some r) : step_lua env f2 s b = some r := by
  obtain ⟨k, rfl⟩ := Nat.exists_eq_add_of_le hle
  clear hle
  induction k with
  | zero => exact h
  | succ n ih =>
    have harith : f1 + (n + 1) = (f1 + n) + 1 := by omega
    rw [harith]
    exact step_lua_fuel_mono env _ _ _ _ ih

theorem step_lua_compose (env : Env) :
    ∀ (f1 : Nat) (s : ThreadState) (b1 : Nat) (s' : ThreadState),
      step_lua env f1 s b1 = some (s', .notDone) →
      ∀ (f2 b2 : Nat) (r : ThreadState × StepOut),
        step_lua env f2 s' b2 = some r →
        step_lua env (f1 + f2) s (b1 + 1 + b2) = some r := by
  intro f1
  induction f1 with
  | zero =>
    intro s b1 s' h
    cases h
  | succ n ih =>
    intro s b1 s' h f2 b2 r h2
    have hexp : n + 1 + f2 = (n + f2) + 1 := by omega
    rw [hexp]
    unfold step_lua at h ⊢
    cases he : exec1 env s with
    | returned s1 r1 =>
      rw [he] at h
      have h1 : some (s1, r1) = some (s', StepOut.notDone) := h
      injection h1 with h1
      injection h1 with hs hr
      exact absurd hr (exec1_returned_ne_notDone env s s1 r1 he)
    | restarted s1 =>
      rw [he] at h
      exact ih s1 b1 s' h f2 b2 r h2
    | fellThrough s1 =>
      rw [he] at h
      have h1 : (if b1 = 0 then some (s1, StepOut.notDone)
          else step_lua env n s1 (b1 - 1)) = some (s', StepOut.notDone) := h
      show (if b1 + 1 + b2 = 0 then some (s1, StepOut.notDone)
          else step_lua env (n + f2) s1 (b1 + 1 + b2 - 1)) = some r
      rw [if_neg (show ¬(b1 + 1 + b2 = 0) by omega)]
      by_cases hb : b1 = 0
      · rw [if_pos hb] at h1
        injection h1 with h1
        injection h1 with hs hr
        subst hs
        have harith : b1 + 1 + b2 - 1 = b2 := by omega
        rw [harith]
        exact step_lua_fuel_le env (by omega) h2
      · rw [if_neg hb] at h1
        have harith : b1 + 1 + b2 - 1 = (b1 - 1) + 1 + b2 := by omega
        rw [harith]
        exact ih s1 (b1 - 1) s' h1 f2 b2 r h2

theorem step_lua_det (env : Env) :
    ∀ (f1 : Nat) (s : ThreadState) (b1 : Nat) (s1 : ThreadState) (r1 : StepOut)
      (f2 b2 : Nat) (s2 : ThreadState) (r2 : StepOut),
      step_lua env f1 s b1 = some (s1, r1) → r1 ≠ .notDone →
      step_lua env f2 s b2 = some (s2, r2) → r2 ≠ .notDone →
      s1 = s2 ∧ r1 = r2 := by
  intro f1
  induction f1 with
  | zero =>
    intro s b1 s1 r1 f2 b2 s2 r2 h1
    cases h1
  | succ n ih =>
    intro s b1 s1 r1 f2 b2 s2 r2 h1 hn1 h2 hn2
    cases f2 with
    | zero => cases h2
    | succ m =>
      unfold step_lua at h1 h2
      cases he : exec1 env s with
      | returned s' r' =>
        rw [he] at h1 h2
        have h1a : some (s', r') = some (s1, r1) := h1
        have h2a : some (s', r') = some (s2, r2) := h2
        injection h1a with h1a
        injection h1a with hs1 hr1
        injection h2a with h2a
        injection h2a with hs2 hr2
        subst hs1
        subst hr1
        subst hs2
        subst hr2
        exact ⟨rfl, rfl⟩
      | restarted s' =>
        rw [he] at h1 h2
        exact ih s' b1 s1 r1 m b2 s2 r2 h1 hn1 h2 hn2
      | fellThrough s' =>
        rw [he] at h1 h2
        have h1a : (if b1 = 0 then some (s', StepOut.notDone)
            else step_lua env n s' (b1 - 1)) = some (s1, r1) := h1
        have h2a : (if b2 = 0 then some (s', StepOut.notDone)
            else step_lua env m s' (b2 - 1)) = some (s2, r2) := h2
        by_cases hb1 : b1 = 0
        · rw [if_pos hb1] at h1a
          injection h1a with h1a
          injection h1a with hs1 hr1
          exact absurd hr1.symm hn1
        · rw [if_neg hb1] at h1a
          by_cases hb2 : b2 = 0
          · rw [if_pos hb2] at h2a
            injection h2a with h2a
            injection h2a with hs2 hr2
            exact absurd hr2.symm hn2
          · rw [if_neg hb2] at h2a
            exact ih s' (b1 - 1) s1 r1 m (b2 - 1) s2 r2 h1a hn1 h2a hn2

theorem run_slices_to_single (env : Env) :
    ∀ (m fuel g : Nat) (s sf : ThreadState) (vals : List Value),
      run_slices env fuel g m s = some (sf, vals) →
      ∃ F B, step_lua env F s B = some (sf, .finish vals) := by
  intro m
  induction m with
  | zero =>
    intro fuel g s sf vals h
    cases h
  | succ n ih =>
    intro fuel g s sf vals h
    unfold run_slices at h
    cases hst : step_lua env fuel s g with
    | none =>
      rw [hst] at h
      cases h
    | some pr =>
      obtain ⟨s1, r⟩ := pr
      rw [hst] at h
      cases r with
      | notDone =>
        obtain ⟨F, B, hFB⟩ := ih fuel g s1 sf vals h
        exact ⟨fuel + F, g + 1 + B, step_lua_compose env fuel s g s1 hst F B _ hFB⟩
      | finish vals2 =>
        injection h with h
        injection h with hs hv
        subst hs
        subst hv
        exact ⟨fuel, g, hst⟩
      | continueThread k =>
        cases h
      | errorRes e =>
        cases h
      | crash =>
        cases h

/-- C8: driving a closure run across slices of granularity `g` until it
finishes produces the same final thread state and the same returned
values as any single slice with a large enough budget: the single-slice
run exists, and every single-slice run that finishes agrees with the
sliced run. -/
theorem c8_slices_equivalent (env : Env) (fuel g m : Nat) (s sf : ThreadState)
    (vals : List Value)
    (hslices : run_slices env fuel g m s = some (sf, vals)) :
    (∃ F B, step_lua env F s B = some (sf, .finish vals)) ∧
    (∀ F B sf2 vals2, step_lua env F s B = some (sf2, .finish vals2) →
      sf2 = sf ∧ vals2 = vals) := by
  obtain ⟨F0, B0, h0⟩ := run_slices_to_single env m fuel g s sf vals hslices
  refine ⟨⟨F0, B0, h0⟩, ?_⟩
  intro F B sf2 vals2 hsingle
  obtain ⟨hs, hr⟩ := step_lua_det env F s B sf2 (.finish vals2) F0 B0 sf
    (.finish vals) hsingle (by simp) h0 (by simp)
  injection hr with hr
  exact ⟨hs, hr⟩

/-- Witness for C8 at a concrete input: the straight-line program of
`env_moves` driven at granularity 1 finishes with the same state and
values as any single finishing slice. -/
theorem c8_slices_equivalent_witness :
    run_slices env_moves 32 1 10 s_moves = some (⟨[], [], [], []⟩, []) ∧
    ((∃ F B, step_lua env_moves F s_moves B = some (⟨[], [], [], []⟩, .finish [])) ∧
      (∀ F B sf2 vals2,
        step_lua env_moves F s_moves B = some (sf2, .finish vals2) →
        sf2 = ⟨[], [], [], []⟩ ∧ vals2 = [])) :=
  ⟨by decide,
   c8_slices_equivalent env_moves 32 1 10 s_moves ⟨[], [], [], []⟩ [] (by decide)⟩

/-! ## Callback frames always carry an Upper frame return (claim C10) -/

theorem cbu_cons {f : Frame} {l : List Frame} :
    cbu (f :: l) = ((match f.frame_type with
      | FrameType.callback _ =>
        match f.frame_return with
        | FrameReturn.upper _ => true
        | FrameReturn.callBoundary => false
      | _ => true) && cbu l) := by
  simp [cbu]

theorem cbu_cons_ok {l : List Frame} (hc : cbu l = true) (f : Frame)
    (hok : (match f.frame_type with
      | FrameType.callback _ =>
        match f.frame_return with
        | FrameReturn.upper _ => true
        | FrameReturn.callBoundary => false
      | _ => true) = true) : cbu (f :: l) = true := by
  rw [cbu_cons, hok, Bool.true_and]
  exact hc

theorem cbu_tail {l : List Frame} (h : cbu l = true) : cbu l.tail = true := by
  cases l with
  | nil => exact h
  | cons f rest =>
    rw [cbu_cons, Bool.and_eq_true] at h
    exact h.2

theorem cbu_set_pc (s : ThreadState) (base pc : Nat) (h : cbu s.frames = true) :
    cbu (set_pc s base pc).frames = true := by
  unfold set_pc
  cases hf : s.frames with
  | nil => simp [cbu]
  | cons f rest =>
    rw [hf] at h
    rw [cbu_cons, Bool.and_eq_true] at h
    show cbu ({ f with frame_type := .lua base pc } :: rest) = true
    exact cbu_cons_ok h.2 _ rfl

theorem cbu_close_upvalues {s : ThreadState} {b : Nat} {s1 : ThreadState}
    (h : close_upvalues s b = some s1) (hc : cbu s.frames = true) :
    cbu s1.frames = true := by
  unfold close_upvalues at h
  cases hcc : close_cells s.stack s.cells
      (s.open_upvalues.filter (fun kv => decide (b ≤ kv.1))) with
  | none =>
    rw [hcc] at h
    cases h
  | some cs =>
    rw [hcc] at h
    have h1 : some { s with
        open_upvalues := s.open_upvalues.filter (fun kv => decide (kv.1 < b)),
        cells := cs } = some s1 := h
    injection h1 with h1
    rw [← h1]
    exact hc

theorem closure_call_cbu {env : Env} {s : ThreadState} {fi : Nat}
    {args : VarCount} {frret : FrameReturn} {s' : ThreadState}
    (h : closure_call env s fi args frret = some s')
    (hc : cbu s.frames = true) : cbu s'.frames = true := by
  unfold closure_call at h
  repeat' split at h
  any_goals cases h
  all_goals simp only [] at h
  all_goals repeat' split at h
  all_goals cases h
  all_goals exact cbu_cons_ok hc _ rfl

theorem callback_call_cbu {env : Env} {s : ThreadState} {fi : Nat}
    {args : VarCount} {frret : FrameReturn} {s' : ThreadState} {r? : Option StepOut}
    (h : callback_call env s fi args frret = some (s', r?))
    (hc : cbu s.frames = true) : cbu s'.frames = true := by
  unfold callback_call at h
  repeat' split at h
  all_goals try simp only [] at h
  all_goals repeat' split at h
  all_goals try simp only [] at h
  all_goals repeat' split at h
  all_goals cases h
  all_goals first
    | exact hc
    | exact cbu_cons_ok hc _ rfl

theorem function_call_cbu {env : Env} {s : ThreadState} {fi : Nat}
    {args : VarCount} {frret : FrameReturn} {s' : ThreadState} {r? : Option StepOut}
    (h : function_call env s fi args frret = some (s', r?))
    (hc : cbu s.frames = true) : cbu s'.frames = true := by
  unfold function_call at h
  split at h
  case h_1 =>
    cases hcc : closure_call env s fi args frret with
    | none =>
      rw [hcc] at h
      cases h
    | some s2 =>
      rw [hcc] at h
      have h1 : some (s2, (none : Option StepOut)) = some (s', r?) := h
      injection h1 with h1
      injection h1 with h1a h1b
      rw [← h1a]
      exact closure_call_cbu hcc hc
  case h_2 => exact callback_call_cbu h hc
  case h_3 => cases h

set_option maxHeartbeats 2000000 in
theorem exec_op_cbu (env : Env) (proto : FunctionProto) (op : OpCode)
    (s : ThreadState) (bottom base pc : Nat) (frret : FrameReturn)
    (hc : cbu s.frames = true) :
    cbu (res_state (exec_op env proto op s bottom base pc frret)).frames = true := by
  cases op
  all_goals simp only [exec_op]
  all_goals repeat' split
  all_goals try simp only []
  all_goals repeat' split
  all_goals try simp only []
  all_goals repeat' split
  all_goals simp only [res_state]
  all_goals first
    | exact hc
    | exact cbu_set_pc _ _ _ hc
    | exact cbu_close_upvalues (by assumption) hc
    | exact cbu_close_upvalues (by assumption) (cbu_set_pc _ _ _ hc)
    | exact function_call_cbu (by assumption) hc
    | exact cbu_tail (cbu_close_upvalues (by assumption) hc)
    | exact function_call_cbu (by assumption)
        (cbu_tail (cbu_close_upvalues (by assumption) hc))
    | exact cbu_tail (cbu_close_upvalues (by assumption) (cbu_set_pc _ _ _ hc))

theorem exec1_cbu (env : Env) (s : ThreadState) (hc : cbu s.frames = true) :
    cbu (res_state (exec1 env s)).frames = true := by
  unfold exec1
  repeat' split
  all_goals simp only [res_state]
  all_goals first
    | exact hc
    | exact exec_op_cbu env _ _ _ _ _ _ _ (cbu_set_pc _ _ _ hc)

theorem step_lua_cbu (env : Env) :
    ∀ (fuel : Nat) (s : ThreadState) (b : Nat) (s' : ThreadState) (r : StepOut),
      step_lua env fuel s b = some (s', r) → cbu s.frames = true →
      cbu s'.frames = true := by
  intro fuel
  induction fuel with
  | zero =>
    intro s b s' r h
    cases h
  | succ n ih =>
    intro s b s' r h hc
    unfold step_lua at h
    cases he : exec1 env s with
    | returned s1 r1 =>
      rw [he] at h
      have h1 : some (s1, r1) = some (s', r) := h
      injection h1 with h1
      injection h1 with h1a h1b
      rw [← h1a]
      have hthis := exec1_cbu env s hc
      rw [he] at hthis
      exact hthis
    | restarted s1 =>
      rw [he] at h
      have hcs1 : cbu s1.frames = true := by
        have hthis := exec1_cbu env s hc
        rw [he] at hthis
        exact hthis
      exact ih s1 b s' r h hcs1
    | fellThrough s1 =>
      rw [he] at h
      have hcs1 : cbu s1.frames = true := by
        have hthis := exec1_cbu env s hc
        rw [he] at hthis
        exact hthis
      have h1 : (if b = 0 then some (s1, StepOut.notDone)
          else step_lua env n s1 (b - 1)) = some (s', r) := h
      by_cases hb : b = 0
      · rw [if_pos hb] at h1
        injection h1 with h1
        injection h1 with h1a h1b
        rw [← h1a]
        exact hcs1
      · rw [if_neg hb] at h1
        exact ih s1 (b - 1) s' r h1 hcs1

theorem unwind_frames_cbu :
    ∀ (l : List Frame) (bf : Frame) (rest : List Frame),
      unwind_frames l = some (bf, rest) → cbu l = true → cbu rest = true := by
  intro l
  induction l with
  | nil =>
    intro bf rest h
    cases h
  | cons f fs ih =>
    intro bf rest h hc
    unfold unwind_frames at h
    rw [cbu_cons, Bool.and_eq_true] at hc
    by_cases hb : f.frame_return = .callBoundary
    · rw [if_pos hb] at h
      injection h with h
      injection h with h1 h2
      rw [← h2]
      exact hc.2
    · rw [if_neg hb] at h
      exact ih bf rest h hc.2

theorem unwind_cbu {s : ThreadState} {s1 : ThreadState}
    (h : unwind s = some s1) (hc : cbu s.frames = true) :
    cbu s1.frames = true := by
  unfold unwind at h
  cases huf : unwind_frames s.frames with
  | none =>
    rw [huf] at h
    cases h
  | some pr =>
    obtain ⟨bf, rest⟩ := pr
    rw [huf] at h
    simp only [] at h
    have hcr : cbu rest = true := unwind_frames_cbu s.frames bf rest huf hc
    cases hcl : close_upvalues { s with frames := rest } bf.bottom with
    | none =>
      rw [hcl] at h
      cases h
    | some s2 =>
      rw [hcl] at h
      have hc2 : cbu s2.frames = true := cbu_close_upvalues hcl hcr
      injection h with h
      rw [← h]
      cases hh : rest.head? with
      | none => exact hc2
      | some f => exact hc2

theorem step_callback_cbu (env : Env) (s : ThreadState) (hc : cbu s.frames = true) :
    cbu (step_callback env s).1.frames = true := by
  unfold step_callback
  cases hf : s.frames with
  | nil => exact hc
  | cons f rest =>
    simp only []
    have hc1 : cbu (f :: rest) = true := by rw [← hf]; exact hc
    have hcp : (match f.frame_type with
        | FrameType.callback _ =>
          match f.frame_return with
          | FrameReturn.upper _ => true
          | FrameReturn.callBoundary => false
        | _ => true) = true ∧ cbu rest = true := by
      rw [cbu_cons, Bool.and_eq_true] at hc1
      exact hc1
    cases hft : f.frame_type with
    | lua base pc => exact hc
    | yield => exact hc
    | callback k =>
      simp only []
      cases he : env.contStep k with
      | none => exact hc
      | some act =>
        cases act with
        | ret res =>
          simp only []
          cases hfr : f.frame_return with
          | callBoundary => exact hc
          | upper returns =>
            simp only []
            repeat' split
            all_goals first
              | exact hc
              | exact hcp.2
        | yieldA res =>
          exact cbu_cons_ok hcp.2 _ rfl
        | continueA k1 =>
          have hok := hcp.1
          rw [hft] at hok
          have hok2 : (match f.frame_return with
              | FrameReturn.upper _ => true
              | FrameReturn.callBoundary => false) = true := hok
          exact cbu_cons_ok hcp.2 _ hok2
        | errA e =>
          cases hu : unwind s with
          | none => exact hc
          | some s1 => exact unwind_cbu hu hc

theorem thread_step_cbu {env : Env} {fuel : Nat} {s : ThreadState} {g : Nat}
    {s' : ThreadState} {r : StepOut}
    (h : thread_step env fuel s g = some (s', r)) (hc : cbu s.frames = true) :
    cbu s'.frames = true := by
  unfold thread_step at h
  cases hh : s.frames.head? with
  | none =>
    rw [hh] at h
    injection h with h
    injection h with h1 h2
    rw [← h1]
    exact hc
  | some fr =>
    rw [hh] at h
    simp only [] at h
    cases hft : fr.frame_type with
    | lua base pc =>
      rw [hft] at h
      exact step_lua_cbu env fuel s g s' r h hc
    | callback k =>
      rw [hft] at h
      injection h with h
      have hthis := step_callback_cbu env s hc
      rw [h] at hthis
      exact hthis
    | yield =>
      rw [hft] at h
      injection h with h
      injection h with h1 h2
      rw [← h1]
      exact hc

theorem drive_states_cbu (env : Env) (fuel g : Nat) :
    ∀ (n : Nat) (s : ThreadState), cbu s.frames = true →
      cbu (drive_states env fuel g n s).frames = true := by
  intro n
  induction n with
  | zero =>
    intro s hc
    exact hc
  | succ m ih =>
    intro s hc
    unfold drive_states
    cases ht : thread_step env fuel s g with
    | none => exact hc
    | some pr =>
      obtain ⟨s1, r⟩ := pr
      exact ih s1 (thread_step_cbu ht hc)

theorem sequence_closure_cbu {env : Env} {s : ThreadState} {c : Nat}
    {args : List Value} {g : Nat} {s1 : ThreadState} {seq : ThreadSequence}
    (h : sequence_closure env s c args g = some (s1, seq))
    (hc : cbu s.frames = true) : cbu s1.frames = true := by
  unfold sequence_closure at h
  split at h
  case isTrue => cases h
  case isFalse =>
    simp only [] at h
    repeat' split at h
    all_goals cases h
    all_goals rename_i hcc
    all_goals exact closure_call_cbu hcc hc

/-- C10: in any execution started through `sequence_closure` (the
`call_closure` entry point) from a state whose Callback frames all carry
an Upper frame return, every Callback frame ever on the frame stack keeps
an Upper frame return, never CallBoundary: after any number of scheduler
steps the invariant holds, and whenever the top frame is a Callback frame
its frame return is not a call boundary, so the "no frame to return to
from callback" branch of `step_callback` is unreachable. -/
theorem c10_callback_frames_upper (env : Env) (s : ThreadState) (c : Nat)
    (args : List Value) (g : Nat) (s1 : ThreadState) (seq : ThreadSequence)
    (hc : cbu s.frames = true)
    (hseq : sequence_closure env s c args g = some (s1, seq))
    (fuel n : Nat) :
    cbu (drive_states env fuel g n s1).frames = true ∧
    (∀ f fs k, (drive_states env fuel g n s1).frames = f :: fs →
      f.frame_type = FrameType.callback k →
      f.frame_return ≠ FrameReturn.callBoundary) := by
  have h1 : cbu s1.frames = true := sequence_closure_cbu hseq hc
  have h2 : cbu (drive_states env fuel g n s1).frames = true :=
    drive_states_cbu env fuel g n s1 h1
  refine ⟨h2, ?_⟩
  intro f fs k hfr hft hcb
  rw [hfr, cbu_cons, Bool.and_eq_true] at h2
  have hok := h2.1
  rw [hft, hcb] at hok
  exact Bool.false_ne_true hok

/-- Witness for C10 at a concrete input: the run of `env_moves` started on
an empty thread satisfies the hypotheses, and the invariant holds after
two scheduler steps. -/
theorem c10_callback_frames_upper_witness :
    cbu (⟨[], [], [], []⟩ : ThreadState).frames = true ∧
    sequence_closure env_moves ⟨[], [], [], []⟩ 0 [] 1 = some (s_moves, ⟨1, 1⟩) ∧
    (cbu (drive_states env_moves 32 1 2 s_moves).frames = true ∧
      (∀ f fs k, (drive_states env_moves 32 1 2 s_moves).frames = f :: fs →
        f.frame_type = FrameType.callback k →
        f.frame_return ≠ FrameReturn.callBoundary)) :=
  ⟨by decide, by decide,
   c10_callback_frames_upper env_moves ⟨[], [], [], []⟩ 0 [] 1 s_moves ⟨1, 1⟩
     (by decide) (by decide) 32 2⟩

end Luster
